import Mathlib

/-!
Verification of the sparkles-gui backend event storage and decimation core.

The definitions below are a shallow embedding of the Rust sources:
  * `src/tasks/sparkles_connection/storage.rs`   (event stores)
  * `src/tasks/sparkles_connection/event_skipper.rs` (decimation)
  * `src/tasks/sparkles_connection.rs`           (merge, lane assignment, ingestion)

Machine integers (`u64`, `u32`, `u16`, `u8`, `usize`) are modelled as `Nat`;
wrapping arithmetic, where it matters, is written with an explicit `% 2^64`.
Rust iterators become Lean lists; `VecDeque` becomes a list front-to-back;
the `BTreeMap<u64, SmallVec<usize>>` start index becomes an association list
sorted strictly by key; the `Slab` becomes a list indexed by slot id (this
program never removes from the slab, so `insert` always appends at index
`len`, exactly the slab's behaviour on a removal-free history).
-/

namespace SparklesGui

/-- General event name id (`u16` in the source). -/
abbrev GeneralEventNameId := Nat

/-! ## ChannelId (`sparkles_connection.rs`, lines 611-624) -/

/-- `ChannelId` — tagged variant `Thread(u64)` or `External(u32)`. -/
inductive ChannelId where
  | thread (id : Nat)
  | external (id : Nat)
deriving DecidableEq

/-- `ChannelId::general_id`.  The Rust source is
`ChannelId::External(id) => *id as u64 + u64::MAX >> 1`; by Rust operator
precedence `+` binds tighter than `>>`, so this parses as
`(id as u64 + u64::MAX) >> 1`, with the addition wrapping modulo `2^64`
(release-mode semantics, as in the claim). -/
def ChannelId.generalId : ChannelId → Nat
  | .thread id => id
  | .external id => ((id + (2 ^ 64 - 1)) % 2 ^ 64) >>> 1

/-! ## Instant event storage (`storage.rs`, lines 121-189) -/

/-- `StoredInstantEvent` — instant event ordered by timestamp. -/
structure StoredInstantEvent where
  tm : Nat
  nameId : GeneralEventNameId
deriving DecidableEq, Repr

/-- Rust `slice::partition_point(pred)`: on a slice partitioned with respect
to `pred` (all `true` before all `false` — the case in every call site here,
where the deque is sorted and the predicate is a downward-closed timestamp
test), it returns the length of the `true` prefix. -/
def partitionPoint (l : List StoredInstantEvent) (p : StoredInstantEvent → Bool) : Nat :=
  (l.takeWhile p).length

/-- `ChannelEventsStorage::insert_instant_event` (`storage.rs`, lines 169-182).
`match back { Some(last) if last <= event => push_back, _ => insert at
partition_point(|e| e < event) }`; the comparisons use the `Ord` instance on
`StoredInstantEvent`, which compares `tm` only. -/
def insertInstantEvent (l : List StoredInstantEvent) (tm : Nat)
    (nameId : GeneralEventNameId) : List StoredInstantEvent :=
  let event : StoredInstantEvent := ⟨tm, nameId⟩
  match l.getLast? with
  | some last =>
    if last.tm ≤ event.tm then
      l ++ [event]
    else
      l.insertIdx (partitionPoint l (fun e => e.tm < event.tm)) event
  | none =>
    l.insertIdx (partitionPoint l (fun e => e.tm < event.tm)) event

/-- The instants deque obtained by a sequence of
`insert_instant_event(tm, name_id)` calls, starting from the empty deque.  -/
def mkInstants (ops : List (Nat × GeneralEventNameId)) : List StoredInstantEvent :=
  ops.foldl (fun l op => insertInstantEvent l op.1 op.2) []

/-- `ChannelEventsStorage::request_instant_events` (`storage.rs`, lines
185-189): two partition points, then `iter().skip(start).take(end - start)`.
The `usize` subtraction is modelled as truncated `Nat` subtraction; the
claims using this definition carry the hypothesis `start ≤ end`, under which
the Rust subtraction does not underflow and agrees with `Nat` subtraction. -/
def requestInstantEvents (l : List StoredInstantEvent) (start «end» : Nat) :
    List StoredInstantEvent :=
  let startIdx := partitionPoint l (fun e => e.tm < start)
  let endIdx := partitionPoint l (fun e => e.tm < «end»)
  (l.drop startIdx).take (endIdx - startIdx)

/-! ## Range event storage (`storage.rs`, lines 71-119) -/

/-- `RangeEventStorage<T>` (`storage.rs`, lines 71-75): a `Slab` of payloads
`(end, name_id, end_name_id, extra)` plus a `BTreeMap<u64, SmallVec<usize>>`
from start time to slot ids.  The slab is modelled as a list indexed by slot
id: this program never removes range events, so on such a history the slab
assigns ids `0, 1, 2, …` in insertion order, i.e. insertion appends at index
`len`.  The map is an association list sorted strictly by key. -/
structure RangeEventStorage (T : Type) where
  events : List (Nat × GeneralEventNameId × Option GeneralEventNameId × T)
  startsIndex : List (Nat × List Nat)

/-- `RangeEventStorage::default()`: empty slab, empty index. -/
def emptyRangeStorage (T : Type) : RangeEventStorage T := ⟨[], []⟩

/-- The `starts_index.entry(start)` match in `insert`: push `id` onto the
existing bucket at key `start`, or insert a fresh singleton bucket keeping
the keys sorted (`BTreeMap` semantics). -/
def addToIndex : List (Nat × List Nat) → Nat → Nat → List (Nat × List Nat)
  | [], s, id => [(s, [id])]
  | (k, ids) :: rest, s, id =>
    if s < k then (s, [id]) :: (k, ids) :: rest
    else if s = k then (k, ids ++ [id]) :: rest
    else (k, ids) :: addToIndex rest s id

/-- `RangeEventStorage::insert` (`storage.rs`, lines 78-91): slab-insert the
payload, then record the fresh id under `start`; returns the id. -/
def RangeEventStorage.insert {T : Type} (st : RangeEventStorage T)
    (start «end» : Nat) (nameId : GeneralEventNameId)
    (endNameId : Option GeneralEventNameId) (extra : T) :
    RangeEventStorage T × Nat :=
  let id := st.events.length
  (⟨st.events ++ [(«end», nameId, endNameId, extra)],
    addToIndex st.startsIndex start id⟩, id)

/-- One `insert(start, end, name_id, end_name_id, extra)` argument tuple. -/
abbrev RangeInsertOp (T : Type) :=
  Nat × Nat × GeneralEventNameId × Option GeneralEventNameId × T

/-- The storage obtained from a sequence of `insert` calls on
`RangeEventStorage::default()`. -/
def mkRangeStorage {T : Type} (ops : List (RangeInsertOp T)) : RangeEventStorage T :=
  ops.foldl
    (fun st op => (st.insert op.1 op.2.1 op.2.2.1 op.2.2.2.1 op.2.2.2.2).1)
    (emptyRangeStorage T)

/-- The `filter_map` body of `request_events` (`storage.rs`, lines 99-106):
`let (end_time, …) = self.events.get(id)?;
 if *start_time < end && *end_time > start { Some(event) } else { None }`. -/
def yieldEvent {T : Type} (st : RangeEventStorage T) (start «end» key id : Nat) :
    Option (Nat × Nat × GeneralEventNameId × Option GeneralEventNameId × T) :=
  match st.events.get? id with
  | none => none
  | some payload =>
    if key < «end» ∧ payload.1 > start then some (key, payload) else none

/-- The same `filter_map` body, yielding the `(start_time, slot id)` pair
instead of the event tuple. -/
def yieldEventId {T : Type} (st : RangeEventStorage T) (start «end» key id : Nat) :
    Option (Nat × Nat) :=
  match st.events.get? id with
  | none => none
  | some payload =>
    if key < «end» ∧ payload.1 > start then some (key, id) else none

/-- `RangeEventStorage::request_events` (`storage.rs`, lines 97-108):
iterate `starts_index.range(..end)` — the key-sorted entries with key
`< end` — and for each recorded slot id yield the event if
`start_time < end ∧ end_time > start`. -/
def RangeEventStorage.requestEvents {T : Type} (st : RangeEventStorage T)
    (start «end» : Nat) :
    List (Nat × Nat × GeneralEventNameId × Option GeneralEventNameId × T) :=
  (st.startsIndex.filter (fun kv => kv.1 < «end»)).flatMap fun kv =>
    kv.2.filterMap (yieldEvent st start «end» kv.1)

/-- Id-level image of `request_events`: the same traversal, yielding each
yielded event's `(start_time, slot id)` pair.  Slot ids are assigned in
insertion order, so this exposes the insertion index of each yielded
event. -/
def RangeEventStorage.requestEventIds {T : Type} (st : RangeEventStorage T)
    (start «end» : Nat) : List (Nat × Nat) :=
  (st.startsIndex.filter (fun kv => kv.1 < «end»)).flatMap fun kv =>
    kv.2.filterMap (yieldEventId st start «end» kv.1)

/-- Bucket lookup in the start index (for stating invariants): the ids
recorded under key `k`, `[]` when the key is absent. -/
def lookupBucket (idx : List (Nat × List Nat)) (k : Nat) : List Nat :=
  match idx.find? (fun kv => kv.1 = k) with
  | some kv => kv.2
  | none => []

/-- The insertion indices of the ops whose start time is `k`, ascending. -/
def bucketSpec {T : Type} (ops : List (RangeInsertOp T)) (k : Nat) : List Nat :=
  (List.range ops.length).filter fun i =>
    match ops.get? i with
    | some op => op.1 == k
    | none => false

/-- Structural invariant tying a storage to the insert history that built
it: the slab holds the payloads in insertion order, every bucket holds
exactly the insertion indices with that start time (ascending), the index
keys are strictly sorted, and no bucket is empty. -/
def RangeStorageInv {T : Type} (ops : List (RangeInsertOp T))
    (st : RangeEventStorage T) : Prop :=
  st.events = ops.map (·.2) ∧
  (∀ k, lookupBucket st.startsIndex k = bucketSpec ops k) ∧
  st.startsIndex.Pairwise (fun a b => a.1 < b.1) ∧
  (∀ kv ∈ st.startsIndex, kv.2 ≠ [])

/-! ## Ingestion timestamp tracking -/

/-- `ConnectionTimestamps` (`storage.rs`, lines 45-49).  The wall-clock
`Instant` half of `last_sync` is outside the embedding; `lastSyncTm` is the
`u64` half (`last_event_tm`). -/
structure ConnectionTimestamps where
  lastSyncTm : Nat
  minTm : Nat
  maxTm : Nat
deriving DecidableEq, Repr

/-- `ClientStorage::update_conn_timestamps` (`storage.rs`, lines 25-42):
only acts when both arguments are `Some`. -/
def updateConnTimestamps (cur : Option ConnectionTimestamps)
    (minTm maxTm : Option Nat) : Option ConnectionTimestamps :=
  match minTm, maxTm with
  | some mn, some mx =>
    match cur with
    | some ts => some { lastSyncTm := mx, minTm := min ts.minTm mn, maxTm := max ts.maxTm mx }
    | none => some { lastSyncTm := mx, minTm := mn, maxTm := mx }
  | _, _ => cur

/-- One parsed event of a batch, as far as timestamps are concerned:
`ParsedEvent::Instant { tm, .. }` or `ParsedEvent::Range { start, end, .. }`
(`ParsedExternalEvent` has the same timestamp shape). -/
inductive IngestEvent where
  | instant (tm : Nat)
  | range (start «end» : Nat)
deriving DecidableEq, Repr

/-- The per-batch `min_tm` / `max_tm` accumulation in `run`
(`sparkles_connection.rs`, lines 287-313): for an instant,
`min_tm = Some(min_tm.map_or(tm, |min| min.min(tm)))`; for a range,
`min_tm = Some(min_tm.map_or(start, |min| min.min(start).min(end)))`, and
symmetrically for `max_tm`. -/
def minMaxStep (acc : Option Nat × Option Nat) (ev : IngestEvent) :
    Option Nat × Option Nat :=
  match ev with
  | .instant tm =>
    (some (acc.1.elim tm (fun mn => min mn tm)),
     some (acc.2.elim tm (fun mx => max mx tm)))
  | .range s e =>
    (some (acc.1.elim s (fun mn => min (min mn s) e)),
     some (acc.2.elim e (fun mx => max (max mx s) e)))

def batchMinMax (events : List IngestEvent) : Option Nat × Option Nat :=
  events.foldl minMaxStep (none, none)

/-- Processing one `Events` / `ExternalEvents` batch updates
`conn_timestamps` with the batch min/max (`sparkles_connection.rs`,
lines 279-358). -/
def ingestBatch (cur : Option ConnectionTimestamps) (events : List IngestEvent) :
    Option ConnectionTimestamps :=
  let mm := batchMinMax events
  updateConnTimestamps cur mm.1 mm.2

/-- `conn_timestamps` after a sequence of batches, starting from `None`
(`ClientStorage::new`). -/
def ingestBatches (batches : List (List IngestEvent)) : Option ConnectionTimestamps :=
  batches.foldl ingestBatch none

/-- Data-model well-formedness of a parsed event (spec §3: `RangeEvent`
invariant `start ≤ end`; instants are always well-formed). -/
def evWF : IngestEvent → Bool
  | .instant _ => true
  | .range s e => s ≤ e

/-- `[mn, mx]` covers an event: an instant timestamp lies inside, a range
starts no earlier than `mn` and ends no later than `mx`. -/
def coversEvent (mn mx : Nat) : IngestEvent → Prop
  | .instant tm => mn ≤ tm ∧ tm ≤ mx
  | .range s e => mn ≤ s ∧ e ≤ mx



/-! ## Event decimation (`event_skipper.rs`; `sparkles_connection.rs`) -/

/-- `MAX_EV_CNT` (`sparkles_connection.rs`, line 36). -/
def MAX_EV_CNT : Nat := 50000

/-- `EventSkipper` (`event_skipper.rs`, lines 4-17). -/
structure EventSkipper where
  skipThr : Nat
  maxEvents : Nat
  keepCnt : Nat
  skipCnt : Nat
  counter : Nat
  cycleLen : Nat
  skippedCount : Nat
  totalCount : Nat
deriving DecidableEq, Repr

/-- `EventSkipper::new` (`event_skipper.rs`, lines 21-46); the `usize`
divisions are exact `Nat` divisions (`max_events` is always
`MAX_EV_CNT > 0` at the call sites). -/
def EventSkipper.new (skipThr maxEvents totalEvents : Nat) : EventSkipper :=
  let kcsc :=
    if totalEvents > maxEvents then
      (1, (totalEvents + maxEvents - 1) / maxEvents)
    else if totalEvents > 0 then
      (maxEvents / totalEvents, 1)
    else
      (1, 1)
  { skipThr := skipThr, maxEvents := maxEvents,
    keepCnt := kcsc.1, skipCnt := kcsc.2,
    counter := 0, cycleLen := kcsc.1 + kcsc.2,
    skippedCount := 0, totalCount := 0 }

/-- `EventSkipper::should_keep_instant` (`event_skipper.rs`, lines 49-68):
returns the decision together with the updated skipper state. -/
def EventSkipper.shouldKeepInstant (sk : EventSkipper) (tmDiff : Nat) :
    Bool × EventSkipper :=
  let sk := { sk with totalCount := sk.totalCount + 1 }
  let res :=
    if tmDiff < sk.skipThr then
      (decide (sk.counter < sk.keepCnt),
       { sk with counter := (sk.counter + 1) % sk.cycleLen })
    else
      (true, { sk with counter := 0 })
  if res.1 then res
  else (res.1, { res.2 with skippedCount := res.2.skippedCount + 1 })

/-- `EventSkipper::should_keep_range` (`event_skipper.rs`, lines 71-91). -/
def EventSkipper.shouldKeepRange (sk : EventSkipper)
    (startDistance duration : Nat) : Bool × EventSkipper :=
  let sk := { sk with totalCount := sk.totalCount + 1 }
  let res :=
    if startDistance < sk.skipThr ∧ duration < sk.skipThr then
      (decide (sk.counter < sk.keepCnt),
       { sk with counter := (sk.counter + 1) % sk.cycleLen })
    else
      (true, { sk with counter := 0 })
  if res.1 then res
  else (res.1, { res.2 with skippedCount := res.2.skippedCount + 1 })

/-- `EventSkippingProcessor` (`event_skipper.rs`, lines 112-141). -/
structure EventSkippingProcessor where
  instantSkipper : EventSkipper
  rangeSkipper : EventSkipper
deriving DecidableEq, Repr

def EventSkippingProcessor.new (skipThr maxEvents instantCount rangeCount : Nat) :
    EventSkippingProcessor :=
  ⟨EventSkipper.new skipThr maxEvents instantCount,
   EventSkipper.new skipThr maxEvents rangeCount⟩

def EventSkippingProcessor.shouldKeepInstant (p : EventSkippingProcessor)
    (tmDiff : Nat) : Bool × EventSkippingProcessor :=
  let r := p.instantSkipper.shouldKeepInstant tmDiff
  (r.1, { p with instantSkipper := r.2 })

def EventSkippingProcessor.shouldKeepRange (p : EventSkippingProcessor)
    (startDistance duration : Nat) : Bool × EventSkippingProcessor :=
  let r := p.rangeSkipper.shouldKeepRange startDistance duration
  (r.1, { p with rangeSkipper := r.2 })

/-- One iteration of the instant decimation loop in `run`
(`sparkles_connection.rs`, lines 438-451): the accumulator is
`(buf, prev_instant, processor)`; when a previous instant exists, it is
kept or skipped by its gap to the current event, and the current event
becomes the new previous. -/
def instantStep (instantY : Nat)
    (acc : List (Nat × GeneralEventNameId × Nat) ×
      Option (Nat × GeneralEventNameId) × EventSkippingProcessor)
    (ev : Nat × GeneralEventNameId) :
    List (Nat × GeneralEventNameId × Nat) ×
      Option (Nat × GeneralEventNameId) × EventSkippingProcessor :=
  match acc.2.1 with
  | some prev =>
    let tmDiff := ev.1 - prev.1
    let r := acc.2.2.shouldKeepInstant tmDiff
    if r.1 then
      (acc.1 ++ [(prev.1, prev.2, instantY)], some ev, r.2)
    else
      (acc.1, some ev, r.2)
  | none => (acc.1, some ev, acc.2.2)

/-- The instant decimation loop of `run` (`sparkles_connection.rs`, lines
437-458), including the unconditional flush of the final previous instant.
Emits `(tm, name_id, y)` records; the source serializes each record as
`u64 tm | u16 name_id | u8 y`. -/
def processInstantEvents (events : List (Nat × GeneralEventNameId))
    (proc : EventSkippingProcessor) (instantY : Nat) :
    List (Nat × GeneralEventNameId × Nat) × EventSkippingProcessor :=
  let r := events.foldl (instantStep instantY) ([], none, proc)
  match r.2.1 with
  | some prev => (r.1 ++ [(prev.1, prev.2, instantY)], r.2.2)
  | none => (r.1, r.2.2)

/-! ## Range merge and lane assignment (`sparkles_connection.rs`, lines 38-202) -/

/-- `RangeEventType` (`sparkles_connection.rs`, lines 38-42). -/
inductive RangeEventType where
  | localEv (start endT : Nat) (nameId : GeneralEventNameId)
      (endNameId : Option GeneralEventNameId)
  | crossThread (start endT : Nat) (nameId : GeneralEventNameId)
      (endNameId : Option GeneralEventNameId) (threadId : Nat)
deriving DecidableEq, Repr

/-- `RangeEventType::start_time` (lines 45-50). -/
def RangeEventType.startTime : RangeEventType → Nat
  | .localEv s _ _ _ => s
  | .crossThread s _ _ _ _ => s

/-- `RangeEventType::end_time` (lines 52-57). -/
def RangeEventType.endTime : RangeEventType → Nat
  | .localEv _ e _ _ => e
  | .crossThread _ e _ _ _ => e

/-- `RangeEventType::name_id` (lines 59-64). -/
def RangeEventType.nameId : RangeEventType → GeneralEventNameId
  | .localEv _ _ n _ => n
  | .crossThread _ _ n _ _ => n

/-- `RangeEventType::end_name_id` (lines 66-71). -/
def RangeEventType.endNameId : RangeEventType → Option GeneralEventNameId
  | .localEv _ _ _ en => en
  | .crossThread _ _ _ en _ => en

/-- `RangeEventType::cross_thread_id` (lines 73-78). -/
def RangeEventType.crossThreadId : RangeEventType → Option Nat
  | .localEv _ _ _ _ => none
  | .crossThread _ _ _ _ t => some t

/-- The item type of the local range iterator. -/
abbrev LocalRangeTuple :=
  Nat × Nat × GeneralEventNameId × Option GeneralEventNameId

/-- The item type of the cross-thread range iterator. -/
abbrev CrossRangeTuple :=
  Nat × Nat × GeneralEventNameId × Option GeneralEventNameId × Nat

def mkLocal (t : LocalRangeTuple) : RangeEventType :=
  .localEv t.1 t.2.1 t.2.2.1 t.2.2.2

def mkCross (t : CrossRangeTuple) : RangeEventType :=
  .crossThread t.1 t.2.1 t.2.2.1 t.2.2.2.1 t.2.2.2.2

/-- `merge_range_events` (lines 81-111): peek both iterators, emit the
local event when `local.start_time() <= cross_thread.start_time()`, else
the cross-thread event.  Written with explicit fuel (one unit per emitted
event; the wrapper passes the total length, which suffices). -/
def mergeAux : Nat → List LocalRangeTuple → List CrossRangeTuple →
    List RangeEventType
  | 0, _, _ => []
  | _ + 1, [], cs => cs.map mkCross
  | _ + 1, l :: ls, [] => (l :: ls).map mkLocal
  | fuel + 1, l :: ls, c :: cs =>
    if l.1 ≤ c.1 then mkLocal l :: mergeAux fuel ls (c :: cs)
    else mkCross c :: mergeAux fuel (l :: ls) cs

def mergeRangeEvents (ls : List LocalRangeTuple) (cs : List CrossRangeTuple) :
    List RangeEventType :=
  mergeAux (ls.length + cs.length) ls cs

/-- A kept range record as serialized into a range buffer
(lines 183-196): `u64 start | u64 end | u16 name_id |
(u16 end_name_id | 0xFF) | u8 y` and, for cross-thread events, a trailing
`u64 thread_id`. -/
structure KeptRange where
  start : Nat
  endT : Nat
  nameId : GeneralEventNameId
  endNameId : Option GeneralEventNameId
  y : Nat
  threadId : Option Nat
deriving DecidableEq, Repr

/-- The mutable state of the `process_range_events` loop
(lines 123-132). -/
structure ProcState where
  activeRanges : List (Nat × Nat)
  usedYLevels : List Bool
  localRangeBuf : List KeptRange
  crossThreadRangeBuf : List KeptRange
  maxRangeY : Nat
  prevRangeStart : Option Nat
  prevStart : Nat
deriving DecidableEq, Repr

def initProcState : ProcState :=
  ⟨[], List.replicate 256 false, [], [], 0, none, 0⟩

/-- `Vec::swap_remove(i)`: overwrite index `i` with the last element, then
pop the last element. -/
def swapRemove (v : List (Nat × Nat)) (i : Nat) : List (Nat × Nat) :=
  (v.set i (v.getLastD (0, 0))).dropLast

/-- The expiry loop of `process_range_events` (lines 152-161): scan
`active_ranges` with index `i`; entries with `end_time ≤ range_start` are
swap-removed and their lane freed in `used_y_levels`, otherwise `i`
advances.  Written with explicit fuel: `v.length - i` strictly decreases
every iteration, so the wrapper fuel `v.length` suffices. -/
def retireAux : Nat → List (Nat × Nat) → Nat → List Bool → Nat →
    List (Nat × Nat) × List Bool
  | 0, v, _, used, _ => (v, used)
  | fuel + 1, v, i, used, s =>
    match v.get? i with
    | none => (v, used)
    | some p =>
      if p.1 ≤ s then retireAux fuel (swapRemove v i) i (used.set p.2 false) s
      else retireAux fuel v (i + 1) used s

def retireLoop (v : List (Nat × Nat)) (used : List Bool) (s : Nat) :
    List (Nat × Nat) × List Bool :=
  retireAux v.length v 0 used s

/-- The first-free-lane scan (lines 163-167): `y` starts at 0 and advances
while `y < 255 && used_y_levels[y]`.  At most 255 iterations, so fuel 255
suffices. -/
def pickYAux : Nat → List Bool → Nat → Nat
  | 0, _, y => y
  | fuel + 1, used, y =>
    if y < 255 ∧ used.getD y false then pickYAux fuel used (y + 1) else y

def pickY (used : List Bool) : Nat := pickYAux 255 used 0

/-- One iteration of the `process_range_events` loop (lines 133-199):
check the merge-order panic (modelled as `none`), update `prev_start`,
consult the skipper, and if the event is kept retire expired lanes, pick
the first free lane (clamped to 255), update `max_range_y`, and append the
record to the local or cross-thread buffer. -/
def processRangeStep (skipThr : Nat)
    (st : ProcState × EventSkippingProcessor) (ev : RangeEventType) :
    Option (ProcState × EventSkippingProcessor) :=
  let ps := st.1
  let rangeStart := ev.startTime
  let rangeEnd := ev.endTime
  if rangeStart < ps.prevStart then
    none
  else
    let ps := { ps with prevStart := rangeStart }
    let duration := rangeEnd - rangeStart
    let startDistance :=
      match ps.prevRangeStart with
      | some p => rangeStart - p
      | none => skipThr + 1
    let r := st.2.shouldKeepRange startDistance duration
    if r.1 then
      let rv := retireLoop ps.activeRanges ps.usedYLevels rangeStart
      let yPos := pickY rv.2
      let maxY := max ps.maxRangeY yPos
      let used2 := rv.2.set yPos true
      let active2 := rv.1 ++ [(rangeEnd, yPos)]
      let kept : KeptRange :=
        ⟨rangeStart, rangeEnd, ev.nameId, ev.endNameId, yPos, ev.crossThreadId⟩
      if ev.crossThreadId.isSome then
        let ps2 := { ps with
          activeRanges := active2
          usedYLevels := used2
          maxRangeY := maxY
          prevRangeStart := some rangeStart
          crossThreadRangeBuf := ps.crossThreadRangeBuf ++ [kept] }
        some (ps2, r.2)
      else
        let ps2 := { ps with
          activeRanges := active2
          usedYLevels := used2
          maxRangeY := maxY
          prevRangeStart := some rangeStart
          localRangeBuf := ps.localRangeBuf ++ [kept] }
        some (ps2, r.2)
    else
      some ({ ps with prevRangeStart := some rangeStart }, r.2)

/-- The `process_range_events` loop over the merged stream; `none` models
the merge-order panic (line 138). -/
def processRangeList (skipThr : Nat) : List RangeEventType →
    ProcState × EventSkippingProcessor →
    Option (ProcState × EventSkippingProcessor)
  | [], st => some st
  | ev :: evs, st =>
    match processRangeStep skipThr st ev with
    | none => none
    | some st2 => processRangeList skipThr evs st2

/-- `process_range_events` (lines 113-202): merge the two iterators, run
the loop, and return `(local_range_buf, cross_thread_range_buf,
max_range_y)`. -/
def processRangeEvents (ls : List LocalRangeTuple) (cs : List CrossRangeTuple)
    (proc : EventSkippingProcessor) (skipThr : Nat) :
    Option (List KeptRange × List KeptRange × Nat) :=
  match processRangeList skipThr (mergeRangeEvents ls cs) (initProcState, proc) with
  | none => none
  | some st => some (st.1.localRangeBuf, st.1.crossThreadRangeBuf, st.1.maxRangeY)

/-- `instant_y` (`sparkles_connection.rs`, line 436). -/
def instantY (maxRangeY : Nat) : Nat :=
  if maxRangeY < 255 then maxRangeY + 1 else 255

/-- Lane-assignment loop invariant: `used_y_levels` has its fixed 256
entries; a free `used` flag below 255 means no active range holds that
lane; active lanes below 255 are pairwise distinct and all lanes are at
most 255; every emitted range either still has its `(end, y)` entry in
`active_ranges` or ended at or before the last processed start; and any
two emitted ranges sharing a lane other than 255 are disjoint in time. -/
def LaneInv (ps : ProcState) : Prop :=
  ps.usedYLevels.length = 256 ∧
  (∀ y, y < 255 → ps.usedYLevels.getD y false = false →
    ∀ p ∈ ps.activeRanges, p.2 ≠ y) ∧
  ps.activeRanges.Pairwise (fun p q => p.2 = q.2 → p.2 = 255) ∧
  (∀ p ∈ ps.activeRanges, p.2 ≤ 255) ∧
  (∀ o ∈ ps.localRangeBuf ++ ps.crossThreadRangeBuf,
    (o.endT, o.y) ∈ ps.activeRanges ∨ o.endT ≤ ps.prevStart) ∧
  (ps.localRangeBuf ++ ps.crossThreadRangeBuf).Pairwise
    (fun a b => a.y = b.y → a.y ≠ 255 → (a.endT ≤ b.start ∨ b.endT ≤ a.start))

/-! ### Helper lemmas about sorted lists and partition points -/

/-- The instants deque sortedness predicate: non-decreasing by `tm`. -/
def SortedByTm (l : List StoredInstantEvent) : Prop :=
  l.Pairwise (fun a b => a.tm ≤ b.tm)

theorem partitionPoint_le_length (l : List StoredInstantEvent)
    (p : StoredInstantEvent → Bool) : partitionPoint l p ≤ l.length := by
  simpa [partitionPoint] using (l.takeWhile_sublist p).length_le

theorem take_takeWhile_length (l : List StoredInstantEvent)
    (p : StoredInstantEvent → Bool) :
    l.take (l.takeWhile p).length = l.takeWhile p := by
  induction l with
  | nil => simp
  | cons x xs ih =>
    by_cases hx : p x
    · simp [List.takeWhile_cons, hx, ih]
    · simp [List.takeWhile_cons, hx]

/-- On a sorted deque, the prefix of events with `tm < c` is exactly the
filter by `tm < c`. -/
theorem takeWhile_eq_filter_of_sorted (l : List StoredInstantEvent) (c : Nat)
    (h : SortedByTm l) :
    l.takeWhile (fun e => e.tm < c) = l.filter (fun e => e.tm < c) := by
  induction l with
  | nil => simp
  | cons x xs ih =>
    rcases List.pairwise_cons.mp h with ⟨hx, hxs⟩
    by_cases hxc : x.tm < c
    · simp [List.takeWhile_cons, List.filter_cons, hxc, ih hxs]
    · have hall : ∀ e ∈ xs, ¬ (e.tm < c) := fun e he hec =>
        hxc (lt_of_le_of_lt (hx e he) hec)
      have hnil : xs.filter (fun e => decide (e.tm < c)) = [] :=
        List.filter_eq_nil_iff.mpr (fun e he => by simpa using hall e he)
      simp [List.takeWhile_cons, List.filter_cons, hxc, hnil]

/-- On a sorted deque the partition point for `tm < c` is the number of
events with `tm < c`. -/
theorem partitionPoint_eq_countP_of_sorted (l : List StoredInstantEvent) (c : Nat)
    (h : SortedByTm l) :
    partitionPoint l (fun e => e.tm < c) = l.countP (fun e => e.tm < c) := by
  rw [partitionPoint, takeWhile_eq_filter_of_sorted l c h, ← l.countP_eq_length_filter]

theorem mem_le_getLast_tm (l : List StoredInstantEvent) (last : StoredInstantEvent)
    (h : SortedByTm l) (hl : l.getLast? = some last) :
    ∀ a ∈ l, a.tm ≤ last.tm := by
  intro a ha
  have hne : l ≠ [] := by rintro rfl; simp at hl
  have hlast : l.getLast hne = last := by
    have h' := List.getLast?_eq_getLast_of_ne_nil hne
    rw [hl] at h'
    exact (Option.some_inj.mp h').symm
  rcases List.mem_iff_getElem.mp ha with ⟨i, hi, rfl⟩
  rcases Nat.lt_or_ge i (l.length - 1) with hlt | hge
  · have := List.pairwise_iff_getElem.mp h i (l.length - 1) hi
      (by omega) hlt
    rwa [← List.getLast_eq_getElem, hlast] at this
  · have heq : i = l.length - 1 := by omega
    subst heq
    rw [← List.getLast_eq_getElem, hlast]

theorem mem_dropWhile_lt_ge (l : List StoredInstantEvent) (c : Nat)
    (h : SortedByTm l) :
    ∀ b ∈ l.dropWhile (fun e => e.tm < c), c ≤ b.tm := by
  induction l with
  | nil => simp
  | cons x xs ih =>
    rcases List.pairwise_cons.mp h with ⟨hx, hxs⟩
    intro b hb
    rw [List.dropWhile_cons] at hb
    by_cases hxc : x.tm < c
    · rw [if_pos (by simpa using hxc)] at hb
      exact ih hxs b hb
    · rw [if_neg (by simpa using hxc)] at hb
      rcases List.mem_cons.mp hb with rfl | hb
      · omega
      · exact le_trans (by omega) (hx b hb)

theorem insertIdx_length_append {α : Type _} (l₁ l₂ : List α) (x : α) :
    (l₁ ++ l₂).insertIdx l₁.length x = l₁ ++ x :: l₂ := by
  induction l₁ with
  | nil => simp
  | cons a t ih => simpa using ih

/-- Inserting at the partition point keeps the deque sorted. -/
theorem insertInstantEvent_sorted (l : List StoredInstantEvent)
    (tm : Nat) (nameId : GeneralEventNameId) (h : SortedByTm l) :
    SortedByTm (insertInstantEvent l tm nameId) := by
  have hslow : SortedByTm
      (l.insertIdx (partitionPoint l (fun e => e.tm < tm)) ⟨tm, nameId⟩) := by
    have hins := insertIdx_length_append
      (l.takeWhile (fun e => e.tm < tm)) (l.dropWhile (fun e => e.tm < tm))
      (⟨tm, nameId⟩ : StoredInstantEvent)
    rw [List.takeWhile_append_dropWhile] at hins
    rw [partitionPoint, hins]
    rw [SortedByTm, List.pairwise_append]
    refine ⟨?_, ?_, ?_⟩
    · exact List.Pairwise.sublist (List.takeWhile_sublist _) h
    · rw [List.pairwise_cons]
      refine ⟨fun b hb => mem_dropWhile_lt_ge l tm h b hb, ?_⟩
      exact List.Pairwise.sublist (List.dropWhile_sublist _) h
    · intro a ha b hb
      have ha' : a.tm < tm := by
        simpa using List.mem_takeWhile_imp ha
      rcases List.mem_cons.mp hb with rfl | hb
      · exact le_of_lt ha'
      · exact le_trans (le_of_lt ha') (mem_dropWhile_lt_ge l tm h b hb)
  unfold insertInstantEvent
  cases hl : l.getLast? with
  | none => exact hslow
  | some last =>
    by_cases hle : last.tm ≤ tm
    · simp only [hle, if_true]
      rw [SortedByTm, List.pairwise_append]
      refine ⟨h, by simp, ?_⟩
      intro a ha b hb
      rcases List.mem_singleton.mp hb with rfl
      exact le_trans (mem_le_getLast_tm l last h hl a ha) hle
    · simp only [hle, if_false]
      exact hslow

/-- Every reachable instants deque is sorted. -/
theorem mkInstants_sorted (ops : List (Nat × GeneralEventNameId)) :
    SortedByTm (mkInstants ops) := by
  rw [mkInstants]
  induction ops using List.reverseRecOn with
  | nil => simp [SortedByTm]
  | append_singleton ops op ih =>
    rw [List.foldl_append, List.foldl_cons, List.foldl_nil]
    exact insertInstantEvent_sorted _ op.1 op.2 ih

/-- On a sorted deque, `request_instant_events` returns exactly the window
filter, in place. -/
theorem requestInstantEvents_eq_filter (l : List StoredInstantEvent)
    (s e : Nat) (h : SortedByTm l) (hse : s ≤ e) :
    requestInstantEvents l s e =
      l.filter (fun x => s ≤ x.tm ∧ x.tm < e) := by
  induction l with
  | nil => simp [requestInstantEvents, partitionPoint]
  | cons x xs ih =>
    rcases List.pairwise_cons.mp h with ⟨hx, hxs⟩
    by_cases hxsq : x.tm < s
    · -- below the window: drop one more, take the same count
      have hxe : x.tm < e := by omega
      have : requestInstantEvents (x :: xs) s e = requestInstantEvents xs s e := by
        simp [requestInstantEvents, partitionPoint, List.takeWhile_cons, hxsq, hxe]
      rw [this, ih hxs, List.filter_cons]
      simp [show ¬ (s ≤ x.tm ∧ x.tm < e) by omega]
    · by_cases hxee : x.tm < e
      · -- inside the window: the head is kept, the tail prefix is the filter
        have hxs' : ∀ b ∈ xs, s ≤ b.tm := fun b hb => le_trans (by omega) (hx b hb)
        have htail : xs.take (partitionPoint xs (fun b => b.tm < e)) =
            xs.filter (fun b => s ≤ b.tm ∧ b.tm < e) := by
          rw [partitionPoint, take_takeWhile_length,
            takeWhile_eq_filter_of_sorted xs e hxs]
          apply List.filter_congr
          intro b hb
          simp [hxs' b hb]
        have hreq : requestInstantEvents (x :: xs) s e =
            x :: xs.take (partitionPoint xs (fun b => b.tm < e)) := by
          simp [requestInstantEvents, partitionPoint, List.takeWhile_cons, hxsq, hxee]
        rw [hreq, htail, List.filter_cons]
        simp [show s ≤ x.tm ∧ x.tm < e by omega]
      · -- at or past the end of the window: nothing is yielded
        have : requestInstantEvents (x :: xs) s e = [] := by
          have hxsq2 : ¬ x.tm < s := by omega
          simp [requestInstantEvents, partitionPoint, List.takeWhile_cons, hxsq2, hxee]
        rw [this]
        symm
        apply List.filter_eq_nil_iff.mpr
        intro b hb
        rcases List.mem_cons.mp hb with rfl | hb
        · simp; omega
        · have := hx b hb
          simp
          omega

/-- On a sorted deque, the partition point computed for the larger bound is
at least the partition point for the smaller bound. -/
theorem partitionPoint_mono (l : List StoredInstantEvent) (s e : Nat)
    (h : SortedByTm l) (hse : s ≤ e) :
    partitionPoint l (fun x => x.tm < s) ≤ partitionPoint l (fun x => x.tm < e) := by
  rw [partitionPoint_eq_countP_of_sorted l s h, partitionPoint_eq_countP_of_sorted l e h]
  apply List.countP_mono_left
  intro x _ hx
  simp only [decide_eq_true_eq] at hx ⊢
  omega

/-! ### Claims C2, C6, C10, C9 -/

/-- Claim C2, counterexample to the stability clause: inserting `tm = 5`,
then `tm = 7`, then `tm = 5` again produces a deque in which the
later-inserted `tm = 5` event (`name_id = 2`) sits in front of the
earlier-inserted one (`name_id = 0`) — the slow path inserts at the
partition point, which is before all existing equal-`tm` events.  Insertion
order among equals would give `[⟨5,0⟩, ⟨5,2⟩, ⟨7,1⟩]`. -/
theorem claim_C2_counterexample :
    mkInstants [(5, 0), (7, 1), (5, 2)] =
      [⟨5, 2⟩, ⟨5, 0⟩, ⟨7, 1⟩] ∧
    ([⟨5, 2⟩, ⟨5, 0⟩, ⟨7, 1⟩] : List StoredInstantEvent) ≠
      [⟨5, 0⟩, ⟨5, 2⟩, ⟨7, 1⟩] := by
  decide

/-- Claim C2 (amended): after every sequence of `insert_instant_event`
calls with arbitrary `(tm, name_id)` arguments, the instants deque is
sorted non-decreasing by `tm`; insertion order among events with equal `tm`
is preserved on the fast (append) path but not in general, since a
slow-path insert is placed before existing events with the same `tm`. -/
theorem claim_C2_instants_sorted (ops : List (Nat × GeneralEventNameId)) :
    SortedByTm (mkInstants ops) :=
  mkInstants_sorted ops

/-- Claim C6: for every query `[s, e)` with `s ≤ e` on a deque sorted by
`tm`, `request_instant_events(s, e)` yields exactly the stored instants
with `s ≤ tm < e`, in ascending `tm` order. -/
theorem claim_C6_instant_query_filter (l : List StoredInstantEvent) (s e : Nat)
    (h : SortedByTm l) (hse : s ≤ e) :
    requestInstantEvents l s e = l.filter (fun x => s ≤ x.tm ∧ x.tm < e) ∧
    SortedByTm (requestInstantEvents l s e) := by
  refine ⟨requestInstantEvents_eq_filter l s e h hse, ?_⟩
  rw [requestInstantEvents_eq_filter l s e h hse]
  exact List.Pairwise.sublist (List.filter_sublist l) h

theorem claim_C6_witness :
    requestInstantEvents [⟨1, 0⟩, ⟨3, 1⟩, ⟨5, 2⟩] 2 5 =
      ([⟨1, 0⟩, ⟨3, 1⟩, ⟨5, 2⟩] : List StoredInstantEvent).filter
        (fun x => 2 ≤ x.tm ∧ x.tm < 5) ∧
    SortedByTm (requestInstantEvents [⟨1, 0⟩, ⟨3, 1⟩, ⟨5, 2⟩] 2 5) :=
  claim_C6_instant_query_filter [⟨1, 0⟩, ⟨3, 1⟩, ⟨5, 2⟩] 2 5
    (by unfold SortedByTm; decide) (by decide)

/-- Claim C10: on a sorted deque, and for `start ≤ end`, the partition
point computed for `end` is at least the one computed for `start`, so the
`usize` subtraction feeding `take()` never underflows. -/
theorem claim_C10_no_underflow (l : List StoredInstantEvent) (s e : Nat)
    (h : SortedByTm l) (hse : s ≤ e) :
    partitionPoint l (fun x => x.tm < s) ≤ partitionPoint l (fun x => x.tm < e) :=
  partitionPoint_mono l s e h hse

theorem claim_C10_witness :
    partitionPoint [⟨1, 0⟩, ⟨3, 1⟩, ⟨5, 2⟩] (fun x => x.tm < 2) ≤
      partitionPoint [⟨1, 0⟩, ⟨3, 1⟩, ⟨5, 2⟩] (fun x => x.tm < 5) :=
  claim_C10_no_underflow [⟨1, 0⟩, ⟨3, 1⟩, ⟨5, 2⟩] 2 5
    (by unfold SortedByTm; decide) (by decide)

/-- Claim C9, counterexample: because `+` binds tighter than `>>` in Rust,
`External(id)` maps to `((id + (2^64 - 1)) mod 2^64) >> 1`, so
`External(1)` and `External(2)` both map to `0`, which is also the image of
`Thread(0)` — `general_id` is not injective. -/
theorem claim_C9_counterexample :
    ChannelId.generalId (.external 1) = ChannelId.generalId (.external 2) ∧
    (1 : Nat) ≠ 2 ∧
    ChannelId.generalId (.thread 0) = ChannelId.generalId (.external 1) := by
  decide

/-- Claim C9 (amended): `general_id` is injective on `Thread` channels
(`Thread(id)` maps to `id` unchanged); it is not injective on `External`
channels nor across the two variants. -/
theorem claim_C9_thread_injective (a b : Nat) (ha : a < 2 ^ 64) (hb : b < 2 ^ 64)
    (hne : a ≠ b) :
    ChannelId.generalId (.thread a) ≠ ChannelId.generalId (.thread b) := by
  simpa [ChannelId.generalId] using hne

theorem claim_C9_witness :
    ChannelId.generalId (.thread 1) ≠ ChannelId.generalId (.thread 2) :=
  claim_C9_thread_injective 1 2 (by norm_num) (by norm_num) (by decide)

/-! ### Range storage invariants (claims C1, C8) -/

theorem mem_addToIndex_key (idx : List (Nat × List Nat)) (s id : Nat) :
    ∀ kv ∈ addToIndex idx s id, kv.1 = s ∨ kv.1 ∈ idx.map Prod.fst := by
  induction idx with
  | nil =>
    intro kv hkv
    simp only [addToIndex, List.mem_singleton] at hkv
    subst hkv
    left
    rfl
  | cons hd rest ih =>
    obtain ⟨k, ids⟩ := hd
    intro kv hkv
    simp only [addToIndex] at hkv
    by_cases h1 : s < k
    · rw [if_pos h1] at hkv
      rcases List.mem_cons.mp hkv with rfl | hkv2
      · exact Or.inl rfl
      · exact Or.inr (List.mem_map_of_mem Prod.fst hkv2)
    · rw [if_neg h1] at hkv
      by_cases h2 : s = k
      · rw [if_pos h2] at hkv
        rcases List.mem_cons.mp hkv with rfl | hkv2
        · exact Or.inl h2.symm
        · exact Or.inr (List.mem_map_of_mem Prod.fst (List.mem_cons_of_mem _ hkv2))
      · rw [if_neg h2] at hkv
        rcases List.mem_cons.mp hkv with rfl | hkv2
        · exact Or.inr (by simp)
        · rcases ih kv hkv2 with h | h
          · exact Or.inl h
          · right
            rw [List.map_cons]
            exact List.mem_cons_of_mem _ h

theorem addToIndex_sorted (idx : List (Nat × List Nat)) (s id : Nat)
    (h : idx.Pairwise (fun a b => a.1 < b.1)) :
    (addToIndex idx s id).Pairwise (fun a b => a.1 < b.1) := by
  induction idx with
  | nil => simp [addToIndex]
  | cons hd rest ih =>
    obtain ⟨k, ids⟩ := hd
    rcases List.pairwise_cons.mp h with ⟨hk, hrest⟩
    simp only [addToIndex]
    by_cases h1 : s < k
    · rw [if_pos h1]
      rw [List.pairwise_cons]
      refine ⟨?_, h⟩
      intro b hb
      rcases List.mem_cons.mp hb with rfl | hb2
      · exact h1
      · exact lt_trans h1 (hk b hb2)
    · rw [if_neg h1]
      by_cases h2 : s = k
      · rw [if_pos h2]
        rw [List.pairwise_cons]
        exact ⟨hk, hrest⟩
      · rw [if_neg h2]
        rw [List.pairwise_cons]
        refine ⟨?_, ih hrest⟩
        intro b hb
        rcases mem_addToIndex_key rest s id b hb with h3 | h3
        · omega
        · rcases List.mem_map.mp h3 with ⟨kv, hkv, hfst⟩
          rw [← hfst]
          exact hk kv hkv

theorem addToIndex_nonempty (idx : List (Nat × List Nat)) (s id : Nat)
    (h : ∀ kv ∈ idx, kv.2 ≠ []) :
    ∀ kv ∈ addToIndex idx s id, kv.2 ≠ [] := by
  induction idx with
  | nil =>
    intro kv hkv
    simp only [addToIndex, List.mem_singleton] at hkv
    subst hkv
    simp
  | cons hd rest ih =>
    obtain ⟨k, ids⟩ := hd
    intro kv hkv
    simp only [addToIndex] at hkv
    by_cases h1 : s < k
    · rw [if_pos h1] at hkv
      rcases List.mem_cons.mp hkv with rfl | hkv2
      · simp
      · exact h kv hkv2
    · rw [if_neg h1] at hkv
      by_cases h2 : s = k
      · rw [if_pos h2] at hkv
        rcases List.mem_cons.mp hkv with rfl | hkv2
        · simp
        · exact h kv (List.mem_cons_of_mem _ hkv2)
      · rw [if_neg h2] at hkv
        rcases List.mem_cons.mp hkv with rfl | hkv2
        · exact h _ (List.mem_cons_self _ _)
        · exact ih (fun a ha => h a (List.mem_cons_of_mem _ ha)) kv hkv2

theorem lookupBucket_nil (k : Nat) : lookupBucket [] k = [] := rfl

theorem lookupBucket_cons (hd : Nat × List Nat) (rest : List (Nat × List Nat)) (k : Nat) :
    lookupBucket (hd :: rest) k =
      if hd.1 = k then hd.2 else lookupBucket rest k := by
  by_cases h : hd.1 = k
  · simp [lookupBucket, List.find?_cons_of_pos, h]
  · simp only [lookupBucket, if_neg h]
    rw [List.find?_cons_of_neg]
    simp [h]

theorem lookupBucket_eq_nil_of_lt (idx : List (Nat × List Nat)) (s : Nat)
    (h : idx.Pairwise (fun a b => a.1 < b.1))
    (hs : ∀ kv ∈ idx, s < kv.1) :
    lookupBucket idx s = [] := by
  induction idx with
  | nil => rfl
  | cons hd rest ih =>
    rw [lookupBucket_cons]
    rw [if_neg (by have := hs hd (List.mem_cons_self _ _); omega)]
    exact ih (List.pairwise_cons.mp h).2
      (fun kv hkv => hs kv (List.mem_cons_of_mem _ hkv))

theorem lookupBucket_addToIndex (idx : List (Nat × List Nat)) (s id k : Nat)
    (h : idx.Pairwise (fun a b => a.1 < b.1)) :
    lookupBucket (addToIndex idx s id) k =
      if k = s then lookupBucket idx s ++ [id] else lookupBucket idx k := by
  induction idx with
  | nil =>
    simp only [addToIndex]
    by_cases hk : k = s
    · subst hk
      simp [lookupBucket_cons, lookupBucket_nil]
    · rw [if_neg hk, lookupBucket_cons]
      rw [if_neg (fun h2 => hk h2.symm)]
  | cons hd rest ih =>
    obtain ⟨k0, ids0⟩ := hd
    rcases List.pairwise_cons.mp h with ⟨hk0, hrest⟩
    simp only [addToIndex]
    by_cases h1 : s < k0
    · rw [if_pos h1]
      by_cases hk : k = s
      · subst hk
        rw [if_pos rfl, lookupBucket_cons, if_pos rfl]
        have : lookupBucket ((k0, ids0) :: rest) k = [] := by
          apply lookupBucket_eq_nil_of_lt _ _ h
          intro kv hkv
          rcases List.mem_cons.mp hkv with rfl | hkv2
          · exact h1
          · exact lt_trans h1 (hk0 kv hkv2)
        rw [this]
        rfl
      · rw [if_neg hk, lookupBucket_cons]
        rw [if_neg (by simp; omega)]
    · rw [if_neg h1]
      by_cases h2 : s = k0
      · rw [if_pos h2]
        subst h2
        by_cases hk : k = s
        · subst hk
          rw [if_pos rfl, lookupBucket_cons, if_pos rfl, lookupBucket_cons, if_pos rfl]
        · rw [if_neg hk, lookupBucket_cons, lookupBucket_cons,
            if_neg (fun hh => hk hh.symm), if_neg (fun hh => hk hh.symm)]
      · rw [if_neg h2]
        by_cases hk : k = k0
        · subst hk
          rw [lookupBucket_cons, if_pos rfl, lookupBucket_cons]
          rw [if_neg (by omega), lookupBucket_cons, if_pos rfl]
        · rw [lookupBucket_cons, if_neg (fun hh => hk hh.symm), ih hrest]
          by_cases hks : k = s
          · rw [if_pos hks, if_pos hks, lookupBucket_cons,
              if_neg (by omega)]
          · rw [if_neg hks, if_neg hks, lookupBucket_cons,
              if_neg (fun hh => hk hh.symm)]

theorem lookupBucket_of_mem (idx : List (Nat × List Nat))
    (kv : Nat × List Nat) (h : idx.Pairwise (fun a b => a.1 < b.1))
    (hkv : kv ∈ idx) : lookupBucket idx kv.1 = kv.2 := by
  induction idx with
  | nil => cases hkv
  | cons hd rest ih =>
    rcases List.pairwise_cons.mp h with ⟨hk0, hrest⟩
    rcases List.mem_cons.mp hkv with rfl | hkv2
    · rw [lookupBucket_cons, if_pos rfl]
    · rw [lookupBucket_cons, if_neg (by have := hk0 kv hkv2; omega)]
      exact ih hrest hkv2

theorem lookupBucket_mem (idx : List (Nat × List Nat)) (k : Nat)
    (h : lookupBucket idx k ≠ []) :
    ∃ kv ∈ idx, kv.1 = k ∧ kv.2 = lookupBucket idx k := by
  cases hf : idx.find? (fun kv => kv.1 = k) with
  | none =>
    exfalso
    apply h
    rw [lookupBucket, hf]
  | some kv =>
    have hmem := List.mem_of_find?_eq_some hf
    have hkey : kv.1 = k := by simpa using List.find?_some hf
    refine ⟨kv, hmem, hkey, ?_⟩
    rw [lookupBucket, hf]

theorem mem_bucketSpec {T : Type} (ops : List (RangeInsertOp T)) (k i : Nat) :
    i ∈ bucketSpec ops k ↔ ∃ op, ops.get? i = some op ∧ op.1 = k := by
  rw [bucketSpec, List.mem_filter, List.mem_range]
  constructor
  · rintro ⟨hi, hp⟩
    cases hop : ops.get? i with
    | none => rw [hop] at hp; simp at hp
    | some op =>
      rw [hop] at hp
      refine ⟨op, rfl, ?_⟩
      simpa using hp
  · rintro ⟨op, hop, hk⟩
    have hi : i < ops.length := by
      by_contra hge
      rw [List.get?_eq_none.mpr (by omega)] at hop
      cases hop
    refine ⟨hi, ?_⟩
    rw [hop]
    simpa using hk

theorem bucketSpec_sorted {T : Type} (ops : List (RangeInsertOp T)) (k : Nat) :
    (bucketSpec ops k).Pairwise (· < ·) :=
  List.Pairwise.filter _ (List.pairwise_lt_range _)

theorem bucketSpec_append {T : Type} (ops : List (RangeInsertOp T))
    (op : RangeInsertOp T) (k : Nat) :
    bucketSpec (ops ++ [op]) k =
      bucketSpec ops k ++ (if op.1 = k then [ops.length] else []) := by
  rw [bucketSpec, bucketSpec, List.length_append, List.length_singleton,
    List.range_succ, List.filter_append]
  congr 1
  · apply List.filter_congr
    intro i hi
    rw [List.mem_range] at hi
    rw [List.get?_append hi]
  · rw [List.filter_singleton, List.get?_concat_length]
    by_cases h : op.1 = k
    · have hb : (op.1 == k) = true := by simpa using h
      simp [hb, h]
    · have hb : (op.1 == k) = false := by simpa using h
      simp [hb, h]

theorem rangeStorageInv_insert {T : Type} (ops : List (RangeInsertOp T))
    (st : RangeEventStorage T) (op : RangeInsertOp T)
    (h : RangeStorageInv ops st) :
    RangeStorageInv (ops ++ [op])
      (st.insert op.1 op.2.1 op.2.2.1 op.2.2.2.1 op.2.2.2.2).1 := by
  obtain ⟨hev, hlook, hsort, hne⟩ := h
  have hlen : st.events.length = ops.length := by
    rw [hev, List.length_map]
  refine ⟨?_, ?_, ?_, ?_⟩
  · show st.events ++ [(op.2.1, op.2.2.1, op.2.2.2.1, op.2.2.2.2)] = _
    rw [hev, List.map_append]
    rfl
  · intro k
    show lookupBucket (addToIndex st.startsIndex op.1 st.events.length) k = _
    rw [lookupBucket_addToIndex _ _ _ _ hsort, bucketSpec_append, hlen]
    by_cases hk : k = op.1
    · rw [if_pos hk, if_pos (by omega : op.1 = k), hlook, hk]
    · rw [if_neg hk, if_neg (by omega : ¬ op.1 = k), hlook, List.append_nil]
  · exact addToIndex_sorted _ _ _ hsort
  · exact addToIndex_nonempty _ _ _ hne

theorem mkRangeStorage_inv {T : Type} (ops : List (RangeInsertOp T)) :
    RangeStorageInv ops (mkRangeStorage ops) := by
  rw [mkRangeStorage]
  induction ops using List.reverseRecOn with
  | nil =>
    refine ⟨rfl, fun k => rfl, List.Pairwise.nil, ?_⟩
    intro kv hkv
    cases hkv
  | append_singleton ops op ih =>
    rw [List.foldl_append, List.foldl_cons, List.foldl_nil]
    exact rangeStorageInv_insert ops _ op ih

theorem yieldEventId_eq_some {T : Type} (st : RangeEventStorage T)
    (s e key id : Nat) (x : Nat × Nat) :
    yieldEventId st s e key id = some x ↔
      ∃ payload, st.events.get? id = some payload ∧
        key < e ∧ payload.1 > s ∧ x = (key, id) := by
  rw [yieldEventId]
  cases hpay : st.events.get? id with
  | none => simp
  | some payload =>
    change (if key < e ∧ payload.1 > s then some (key, id) else none) = some x ↔ _
    by_cases hcond : key < e ∧ payload.1 > s
    · rw [if_pos hcond]
      simp only [Option.some_inj]
      constructor
      · rintro rfl
        exact ⟨payload, rfl, hcond.1, hcond.2, rfl⟩
      · rintro ⟨p2, hp2, _, _, rfl⟩
        rfl
    · rw [if_neg hcond]
      simp only [false_iff, reduceCtorEq]
      rintro ⟨p2, hp2, h1, h2, rfl⟩
      rw [Option.some_inj] at hp2
      subst hp2
      exact hcond ⟨h1, h2⟩

theorem yieldEventId_fst {T : Type} (st : RangeEventStorage T)
    (s e key id : Nat) (x : Nat × Nat)
    (h : yieldEventId st s e key id = some x) : x.1 = key := by
  rcases (yieldEventId_eq_some st s e key id x).mp h with ⟨p, _, _, _, rfl⟩
  rfl

theorem mem_requestEventIds {T : Type} (ops : List (RangeInsertOp T))
    (s e k i : Nat) :
    (k, i) ∈ (mkRangeStorage ops).requestEventIds s e ↔
      ∃ op, ops.get? i = some op ∧ op.1 = k ∧ k < e ∧ s < op.2.1 := by
  obtain ⟨hev, hlook, hsort, hne⟩ := mkRangeStorage_inv ops
  rw [RangeEventStorage.requestEventIds, List.mem_flatMap]
  constructor
  · rintro ⟨kv, hkv, hmem⟩
    rw [List.mem_filter] at hkv
    obtain ⟨hkvidx, hkve⟩ := hkv
    rw [List.mem_filterMap] at hmem
    obtain ⟨id, hid, hf⟩ := hmem
    rcases (yieldEventId_eq_some _ _ _ _ _ _).mp hf with
      ⟨payload, hpay, hke, hps, hx⟩
    have hk1 : k = kv.1 := congrArg Prod.fst hx
    have hi1 : i = id := congrArg Prod.snd hx
    subst hk1
    subst hi1
    have hbs : kv.2 = bucketSpec ops kv.1 := by
      rw [← hlook, lookupBucket_of_mem _ _ hsort hkvidx]
    rw [hbs] at hid
    rcases (mem_bucketSpec ops kv.1 i).mp hid with ⟨op, hop, hopk⟩
    refine ⟨op, hop, hopk, hke, ?_⟩
    rw [hev, List.get?_map, hop] at hpay
    have hpe : payload = op.2 := by
      simpa using hpay.symm
    rw [hpe] at hps
    omega
  · rintro ⟨op, hop, hk, hke, hsop⟩
    have hi : i ∈ bucketSpec ops k := (mem_bucketSpec ops k i).mpr ⟨op, hop, hk⟩
    have hlk : lookupBucket (mkRangeStorage ops).startsIndex k =
        bucketSpec ops k := hlook k
    have hnenil : lookupBucket (mkRangeStorage ops).startsIndex k ≠ [] := by
      rw [hlk]
      intro hnil
      rw [hnil] at hi
      cases hi
    obtain ⟨kv, hkvmem, hkvk, hkv2⟩ := lookupBucket_mem _ _ hnenil
    refine ⟨kv, ?_, ?_⟩
    · rw [List.mem_filter]
      refine ⟨hkvmem, by simp [hkvk, hke]⟩
    · rw [List.mem_filterMap]
      refine ⟨i, ?_, ?_⟩
      · rw [hkv2, hlk]
        exact hi
      · rw [(yieldEventId_eq_some _ _ _ _ _ _)]
        refine ⟨op.2, ?_, by omega, by omega, by rw [hkvk]⟩
        rw [hev, List.get?_map, hop]
        rfl

theorem pairwise_requestEventIds {T : Type} (ops : List (RangeInsertOp T))
    (s e : Nat) :
    ((mkRangeStorage ops).requestEventIds s e).Pairwise
      (fun a b => a.1 < b.1 ∨ (a.1 = b.1 ∧ a.2 < b.2)) := by
  obtain ⟨hev, hlook, hsort, hne⟩ := mkRangeStorage_inv ops
  rw [RangeEventStorage.requestEventIds, List.pairwise_flatMap]
  constructor
  · intro kv hkv
    rw [List.mem_filter] at hkv
    have hbs : kv.2 = bucketSpec ops kv.1 := by
      rw [← hlook, lookupBucket_of_mem _ _ hsort hkv.1]
    have hsorted : kv.2.Pairwise (· < ·) := by
      rw [hbs]
      exact bucketSpec_sorted ops kv.1
    rw [List.pairwise_filterMap]
    refine hsorted.imp ?_
    intro id1 id2 hlt x hx y hy
    rw [Option.mem_def] at hx hy
    rcases (yieldEventId_eq_some _ _ _ _ _ _).mp hx with ⟨p1, _, _, _, rfl⟩
    rcases (yieldEventId_eq_some _ _ _ _ _ _).mp hy with ⟨p2, _, _, _, rfl⟩
    exact Or.inr ⟨rfl, hlt⟩
  · have hpw : ((mkRangeStorage ops).startsIndex.filter
        (fun kv => kv.1 < e)).Pairwise (fun a b => a.1 < b.1) :=
      List.Pairwise.filter _ hsort
    refine hpw.imp ?_
    intro kv1 kv2 hlt x hx y hy
    rw [List.mem_filterMap] at hx hy
    obtain ⟨id1, _, hf1⟩ := hx
    obtain ⟨id2, _, hf2⟩ := hy
    rw [yieldEventId_fst _ _ _ _ _ _ hf1, yieldEventId_fst _ _ _ _ _ _ hf2]
    exact Or.inl hlt

theorem nodup_requestEventIds_snd {T : Type} (ops : List (RangeInsertOp T))
    (s e : Nat) :
    (((mkRangeStorage ops).requestEventIds s e).map Prod.snd).Nodup := by
  show (((mkRangeStorage ops).requestEventIds s e).map Prod.snd).Pairwise _
  rw [List.pairwise_map]
  have hpw := List.Pairwise.and_mem.mp (pairwise_requestEventIds ops s e)
  refine hpw.imp ?_
  rintro a b ⟨ha, hb, hR⟩ heq
  rcases hR with hlt | ⟨_, hlt⟩
  · have ha2 : (a.1, a.2) ∈ (mkRangeStorage ops).requestEventIds s e := by
      simpa using ha
    have hb2 : (b.1, b.2) ∈ (mkRangeStorage ops).requestEventIds s e := by
      simpa using hb
    rcases (mem_requestEventIds ops s e a.1 a.2).mp ha2 with ⟨opa, hopa, hka, _⟩
    rcases (mem_requestEventIds ops s e b.1 b.2).mp hb2 with ⟨opb, hopb, hkb, _⟩
    rw [heq, hopb] at hopa
    rw [Option.some_inj] at hopa
    subst hopa
    omega
  · omega

theorem requestEvents_eq_ids {T : Type} (st : RangeEventStorage T) (s e : Nat) :
    st.requestEvents s e = (st.requestEventIds s e).filterMap
      (fun p => (st.events.get? p.2).map (fun pay => (p.1, pay))) := by
  rw [RangeEventStorage.requestEvents, RangeEventStorage.requestEventIds,
    List.filterMap_flatMap]
  congr 1
  funext kv
  rw [List.filterMap_filterMap]
  congr 1
  funext id
  rw [yieldEvent, yieldEventId]
  cases hpay : st.events.get? id with
  | none => rfl
  | some payload =>
    change (if kv.1 < e ∧ payload.1 > s then some (kv.1, payload) else none) =
      ((if kv.1 < e ∧ payload.1 > s then some (kv.1, id) else none)).bind _
    by_cases hcond : kv.1 < e ∧ payload.1 > s
    · rw [if_pos hcond, if_pos hcond]
      show _ = (st.events.get? id).map _
      rw [hpay]
      rfl
    · rw [if_neg hcond, if_neg hcond]
      rfl

/-- Claim C1: for every query window `[s, e)` and every sequence of prior
`insert` calls, `request_events(s, e)` yields exactly the inserted ranges
`r` with `r.start < e ∧ r.end > s`, each exactly once, ordered by start
time, ties among equal starts broken by insertion order.  Stated via the
id-level image `requestEventIds` (slot ids are assigned in insertion
order): (i) the event stream is the id stream with each id replaced by its
slab payload; (ii) a `(start, id)` pair is yielded iff insert number `id`
overlaps the window; (iii) no id is yielded twice; (iv) the stream is
sorted lexicographically by `(start, insertion index)`. -/
theorem claim_C1_range_query {T : Type} (ops : List (RangeInsertOp T)) (s e : Nat) :
    ((mkRangeStorage ops).requestEvents s e =
      ((mkRangeStorage ops).requestEventIds s e).filterMap
        (fun p => ((mkRangeStorage ops).events.get? p.2).map
          (fun pay => (p.1, pay)))) ∧
    (∀ k i, (k, i) ∈ (mkRangeStorage ops).requestEventIds s e ↔
      ∃ op, ops.get? i = some op ∧ op.1 = k ∧ k < e ∧ s < op.2.1) ∧
    (((mkRangeStorage ops).requestEventIds s e).map Prod.snd).Nodup ∧
    ((mkRangeStorage ops).requestEventIds s e).Pairwise
      (fun a b => a.1 < b.1 ∨ (a.1 = b.1 ∧ a.2 < b.2)) :=
  ⟨requestEvents_eq_ids _ s e, fun k i => mem_requestEventIds ops s e k i,
   nodup_requestEventIds_snd ops s e, pairwise_requestEventIds ops s e⟩

/-- Claim C8, counterexample to the "included at `start`" half: a single
zero-length range `[5, 5)` inserted, query window `[5, 10)` with `5 < 10`;
`request_events` yields nothing, because the overlap test requires
`end_time > start`, i.e. `5 > 5`, which fails. -/
theorem claim_C8_counterexample :
    (mkRangeStorage [((5 : Nat), 5, 0, none, ())]).requestEvents 5 10 = [] ∧
    (5 : Nat) < 10 := by
  decide

/-- Claim C8 (amended): a zero-length range (`start == end`) located at
either boundary of the query window `[s, e)` with `s < e` is excluded from
the output of `request_events(s, e)`: at the start boundary the test
`end_time > s` fails, at the end boundary the test `start_time < e`
fails. -/
theorem claim_C8_zero_length_boundaries {T : Type} (ops : List (RangeInsertOp T))
    (s e i : Nat) (op : RangeInsertOp T) (hse : s < e)
    (hop : ops.get? i = some op) (hzero : op.2.1 = op.1)
    (hbound : op.1 = s ∨ op.1 = e) :
    ∀ k, (k, i) ∉ (mkRangeStorage ops).requestEventIds s e := by
  intro k hmem
  rcases (mem_requestEventIds ops s e k i).mp hmem with ⟨op2, hop2, hk, hke, hsop⟩
  rw [hop, Option.some_inj] at hop2
  subst hop2
  rcases hbound with h | h <;> omega

theorem claim_C8_witness :
    (5, 0) ∉ (mkRangeStorage [((5 : Nat), 5, 0, none, ())]).requestEventIds 5 10 :=
  claim_C8_zero_length_boundaries [((5 : Nat), 5, 0, none, ())] 5 10 0
    ((5 : Nat), 5, 0, none, ()) (by decide) (by decide) (by decide) (Or.inl rfl) 5

/-! ### Connection timestamp bounds (claim C7) -/

theorem coversEvent_widen (mn mx mn2 mx2 : Nat) (ev : IngestEvent)
    (h1 : mn2 ≤ mn) (h2 : mx ≤ mx2) (h : coversEvent mn mx ev) :
    coversEvent mn2 mx2 ev := by
  cases ev with
  | instant tm =>
    rcases h with ⟨ha, hb⟩
    exact ⟨by omega, by omega⟩
  | range s e =>
    rcases h with ⟨ha, hb⟩
    exact ⟨by omega, by omega⟩

theorem foldl_minMaxStep_some (events : List IngestEvent) :
    ∀ (mn mx : Nat), ∃ mn2 mx2,
      events.foldl minMaxStep (some mn, some mx) = (some mn2, some mx2) ∧
      mn2 ≤ mn ∧ mx ≤ mx2 ∧ ∀ ev ∈ events, coversEvent mn2 mx2 ev := by
  induction events with
  | nil => exact fun mn mx => ⟨mn, mx, rfl, le_refl _, le_refl _, by simp⟩
  | cons ev es ih =>
    intro mn mx
    rw [List.foldl_cons]
    cases ev with
    | instant tm =>
      obtain ⟨mn2, mx2, heq, h1, h2, hcov⟩ := ih (min mn tm) (max mx tm)
      have h3 := min_le_left mn tm
      have h4 := min_le_right mn tm
      have h5 := le_max_left mx tm
      have h6 := le_max_right mx tm
      refine ⟨mn2, mx2, heq, by omega, by omega, ?_⟩
      intro ev2 hev2
      rcases List.mem_cons.mp hev2 with rfl | hev2
      · exact ⟨by omega, by omega⟩
      · exact hcov ev2 hev2
    | range s e =>
      obtain ⟨mn2, mx2, heq, h1, h2, hcov⟩ :=
        ih (min (min mn s) e) (max (max mx s) e)
      have h3 := min_le_left (min mn s) e
      have h4 := min_le_right (min mn s) e
      have h5 := min_le_left mn s
      have h6 := min_le_right mn s
      have h7 := le_max_left (max mx s) e
      have h8 := le_max_right (max mx s) e
      have h9 := le_max_left mx s
      have h10 := le_max_right mx s
      refine ⟨mn2, mx2, heq, by omega, by omega, ?_⟩
      intro ev2 hev2
      rcases List.mem_cons.mp hev2 with rfl | hev2
      · exact ⟨by omega, by omega⟩
      · exact hcov ev2 hev2

theorem batchMinMax_cons (ev : IngestEvent) (es : List IngestEvent)
    (hwf : evWF ev = true) :
    ∃ mn mx, batchMinMax (ev :: es) = (some mn, some mx) ∧ mn ≤ mx ∧
      ∀ e2 ∈ ev :: es, coversEvent mn mx e2 := by
  rw [batchMinMax, List.foldl_cons]
  cases ev with
  | instant tm =>
    obtain ⟨mn2, mx2, heq, h1, h2, hcov⟩ := foldl_minMaxStep_some es tm tm
    refine ⟨mn2, mx2, heq, by omega, ?_⟩
    intro e2 he2
    rcases List.mem_cons.mp he2 with rfl | he2
    · exact ⟨by omega, by omega⟩
    · exact hcov e2 he2
  | range s e =>
    rw [evWF] at hwf
    have hse : s ≤ e := by simpa using hwf
    obtain ⟨mn2, mx2, heq, h1, h2, hcov⟩ := foldl_minMaxStep_some es s e
    refine ⟨mn2, mx2, heq, by omega, ?_⟩
    intro e2 he2
    rcases List.mem_cons.mp he2 with rfl | he2
    · exact ⟨by omega, by omega⟩
    · exact hcov e2 he2

theorem ingestBatch_nil (cur : Option ConnectionTimestamps) :
    ingestBatch cur [] = cur := rfl

theorem ingestBatches_fold (batches : List (List IngestEvent)) :
    ∀ (cur : Option ConnectionTimestamps),
      (∀ b ∈ batches, ∀ ev ∈ b, evWF ev = true) →
      (∀ ts0, cur = some ts0 → ts0.minTm ≤ ts0.maxTm) →
      (batches.foldl ingestBatch cur = none ↔
        (cur = none ∧ ∀ b ∈ batches, b = [])) ∧
      (∀ ts, batches.foldl ingestBatch cur = some ts →
        ts.minTm ≤ ts.maxTm ∧
        (∀ b ∈ batches, ∀ ev ∈ b, coversEvent ts.minTm ts.maxTm ev) ∧
        (∀ ts0, cur = some ts0 →
          ts.minTm ≤ ts0.minTm ∧ ts0.maxTm ≤ ts.maxTm)) := by
  induction batches with
  | nil =>
    intro cur hwf hcur
    constructor
    · simp
    · intro ts hts
      refine ⟨hcur ts hts, by simp, ?_⟩
      intro ts0 h0
      have h1 : some ts0 = some ts := h0.symm.trans hts
      rw [Option.some_inj] at h1
      subst h1
      exact ⟨le_refl _, le_refl _⟩
  | cons b bs ih =>
    intro cur hwf hcur
    rw [List.foldl_cons]
    have hwfb : ∀ ev ∈ b, evWF ev = true := hwf b (List.mem_cons_self _ _)
    have hwfbs : ∀ b2 ∈ bs, ∀ ev ∈ b2, evWF ev = true :=
      fun b2 hb2 => hwf b2 (List.mem_cons_of_mem _ hb2)
    cases b with
    | nil =>
      rw [ingestBatch_nil]
      obtain ⟨h1, h2⟩ := ih cur hwfbs hcur
      constructor
      · rw [h1]
        constructor
        · rintro ⟨hc, hall⟩
          exact ⟨hc, by
            intro b2 hb2
            rcases List.mem_cons.mp hb2 with rfl | hb2
            · rfl
            · exact hall b2 hb2⟩
        · rintro ⟨hc, hall⟩
          exact ⟨hc, fun b2 hb2 => hall b2 (List.mem_cons_of_mem _ hb2)⟩
      · intro ts hts
        obtain ⟨ha, hb2, hc⟩ := h2 ts hts
        refine ⟨ha, ?_, hc⟩
        intro b2 hb2m
        rcases List.mem_cons.mp hb2m with rfl | hb2m
        · intro ev hev
          cases hev
        · exact hb2 b2 hb2m
    | cons ev es =>
      obtain ⟨mn, mx, hmm, hmnmx, hcov⟩ :=
        batchMinMax_cons ev es (hwfb ev (List.mem_cons_self _ _))
      cases hc : cur with
      | none =>
        have hcur2 : ingestBatch none (ev :: es) = some ⟨mx, mn, mx⟩ := by
          rw [ingestBatch, hmm]
          rfl
        rw [hcur2]
        obtain ⟨h1, h2⟩ := ih (some ⟨mx, mn, mx⟩) hwfbs
          (by
            intro ts0 h0
            rw [Option.some_inj] at h0
            subst h0
            exact hmnmx)
        constructor
        · rw [h1]
          simp
        · intro ts hts
          obtain ⟨ha, hb2, hcw⟩ := h2 ts hts
          obtain ⟨hw1, hw2⟩ := hcw ⟨mx, mn, mx⟩ rfl
          refine ⟨ha, ?_, ?_⟩
          · intro b2 hb2m
            rcases List.mem_cons.mp hb2m with rfl | hb2m
            · intro ev2 hev2
              exact coversEvent_widen mn mx _ _ ev2 hw1 hw2 (hcov ev2 hev2)
            · exact hb2 b2 hb2m
          · intro ts0 h0
            cases h0
      | some ts0 =>
        have hcur2 : ingestBatch (some ts0) (ev :: es) =
            some ⟨mx, min ts0.minTm mn, max ts0.maxTm mx⟩ := by
          rw [ingestBatch, hmm]
          rfl
        rw [hcur2]
        obtain ⟨h1, h2⟩ := ih (some ⟨mx, min ts0.minTm mn, max ts0.maxTm mx⟩)
          hwfbs
          (by
            intro ts1 h0
            rw [Option.some_inj] at h0
            subst h0
            show min ts0.minTm mn ≤ max ts0.maxTm mx
            have ha1 := min_le_right ts0.minTm mn
            have ha2 := le_max_right ts0.maxTm mx
            omega)
        constructor
        · rw [h1]
          simp
        · intro ts hts
          obtain ⟨ha, hb2, hcw⟩ := h2 ts hts
          obtain ⟨hw1, hw2⟩ := hcw ⟨mx, min ts0.minTm mn, max ts0.maxTm mx⟩ rfl
          have hw1' : ts.minTm ≤ min ts0.minTm mn := hw1
          have hw2' : max ts0.maxTm mx ≤ ts.maxTm := hw2
          have ha1 := min_le_left ts0.minTm mn
          have ha2 := min_le_right ts0.minTm mn
          have ha3 := le_max_left ts0.maxTm mx
          have ha4 := le_max_right ts0.maxTm mx
          refine ⟨ha, ?_, ?_⟩
          · intro b2 hb2m
            rcases List.mem_cons.mp hb2m with rfl | hb2m
            · intro ev2 hev2
              exact coversEvent_widen mn mx _ _ ev2 (by omega) (by omega)
                (hcov ev2 hev2)
            · exact hb2 b2 hb2m
          · intro ts1 h0
            rw [Option.some_inj] at h0
            subst h0
            constructor
            · omega
            · omega

/-- Claim C7: after any sequence of ingested event batches (ranges
well-formed per the data model, `start ≤ end`), `conn_timestamps` is `None`
iff no event has been ingested; otherwise `min_tm ≤ max_tm`, every ingested
instant satisfies `min_tm ≤ tm ≤ max_tm`, and every ingested range
satisfies `min_tm ≤ start` and `end ≤ max_tm`. -/
theorem claim_C7_timestamp_bounds (batches : List (List IngestEvent))
    (hwf : ∀ b ∈ batches, ∀ ev ∈ b, evWF ev = true) :
    (ingestBatches batches = none ↔ ∀ b ∈ batches, b = []) ∧
    (∀ ts, ingestBatches batches = some ts →
      ts.minTm ≤ ts.maxTm ∧
      ∀ b ∈ batches, ∀ ev ∈ b, coversEvent ts.minTm ts.maxTm ev) := by
  obtain ⟨h1, h2⟩ := ingestBatches_fold batches none hwf (by intro ts0 h0; cases h0)
  rw [ingestBatches]
  constructor
  · rw [h1]
    simp
  · intro ts hts
    obtain ⟨ha, hb, _⟩ := h2 ts hts
    exact ⟨ha, hb⟩

theorem claim_C7_witness :
    (ingestBatches [[IngestEvent.instant 5, IngestEvent.range 3 7]] = none ↔
      ∀ b ∈ [[IngestEvent.instant 5, IngestEvent.range 3 7]], b = []) ∧
    (∀ ts, ingestBatches [[IngestEvent.instant 5, IngestEvent.range 3 7]] = some ts →
      ts.minTm ≤ ts.maxTm ∧
      ∀ b ∈ [[IngestEvent.instant 5, IngestEvent.range 3 7]],
        ∀ ev ∈ b, coversEvent ts.minTm ts.maxTm ev) :=
  claim_C7_timestamp_bounds [[IngestEvent.instant 5, IngestEvent.range 3 7]]
    (by decide)

/-! ### Decimation (claim C3) -/

theorem shouldKeepInstant_of_thr_le (sk : EventSkipper) (tmDiff : Nat)
    (h : sk.skipThr ≤ tmDiff) :
    sk.shouldKeepInstant tmDiff =
      (true, { sk with totalCount := sk.totalCount + 1, counter := 0 }) := by
  rw [EventSkipper.shouldKeepInstant]
  have hlt : ¬ tmDiff < sk.skipThr := by omega
  simp [hlt]

theorem proc_shouldKeepInstant_of_thr_le (p : EventSkippingProcessor)
    (tmDiff : Nat) (h : p.instantSkipper.skipThr ≤ tmDiff) :
    (p.shouldKeepInstant tmDiff).1 = true ∧
    (p.shouldKeepInstant tmDiff).2.instantSkipper.skipThr =
      p.instantSkipper.skipThr := by
  rw [EventSkippingProcessor.shouldKeepInstant,
    shouldKeepInstant_of_thr_le p.instantSkipper tmDiff h]
  exact ⟨rfl, rfl⟩

theorem foldl_instantStep_zero (y : Nat) (events : List (Nat × GeneralEventNameId)) :
    ∀ (buf : List (Nat × GeneralEventNameId × Nat))
      (prev : Option (Nat × GeneralEventNameId)) (proc : EventSkippingProcessor),
      proc.instantSkipper.skipThr = 0 →
      ((events.foldl (instantStep y) (buf, prev, proc)).1.length +
        (if (events.foldl (instantStep y) (buf, prev, proc)).2.1.isSome
          then 1 else 0) =
        buf.length + (if prev.isSome then 1 else 0) + events.length) ∧
      (events.foldl (instantStep y) (buf, prev, proc)).2.2.instantSkipper.skipThr
        = 0 := by
  induction events with
  | nil =>
    intro buf prev proc h
    simp [h]
  | cons ev es ih =>
    intro buf prev proc h
    rw [List.foldl_cons]
    cases prev with
    | none =>
      have hstep : instantStep y (buf, none, proc) ev = (buf, some ev, proc) := rfl
      rw [hstep]
      obtain ⟨h1, h2⟩ := ih buf (some ev) proc h
      refine ⟨?_, h2⟩
      rw [h1]
      simp
      omega
    | some prev =>
      obtain ⟨hr1, hr2⟩ := proc_shouldKeepInstant_of_thr_le proc (ev.1 - prev.1)
        (by omega)
      have hstep : instantStep y (buf, some prev, proc) ev =
          (buf ++ [(prev.1, prev.2, y)], some ev,
            (proc.shouldKeepInstant (ev.1 - prev.1)).2) := by
        simp [instantStep, hr1]
      rw [hstep]
      obtain ⟨h1, h2⟩ := ih (buf ++ [(prev.1, prev.2, y)]) (some ev)
        ((proc.shouldKeepInstant (ev.1 - prev.1)).2) (by rw [hr2, h])
      refine ⟨?_, h2⟩
      rw [h1]
      simp
      omega

theorem processInstantEvents_length_of_zero
    (events : List (Nat × GeneralEventNameId)) (proc : EventSkippingProcessor)
    (y : Nat) (h : proc.instantSkipper.skipThr = 0) :
    (processInstantEvents events proc y).1.length = events.length := by
  obtain ⟨h1, _⟩ := foldl_instantStep_zero y events [] none proc h
  simp only [processInstantEvents]
  cases hr : (events.foldl (instantStep y) ([], none, proc)).2.1 with
  | some prev =>
    rw [hr] at h1
    simp at h1
    simp
    omega
  | none =>
    rw [hr] at h1
    simp at h1
    simpa using h1

/-- Claim C3 (amended): when `skip_thr` is zero (windows shorter than 2000
ticks), the skip branch `tm_diff < skip_thr` is unreachable, so every
instant of the window is emitted into the frame — the `MAX_EV_CNT` cap does
not apply, and the kept count equals the total count; and for arbitrary
`skip_thr`, every event whose gap from the previous event is `≥ skip_thr`
is kept. -/
theorem claim_C3_decimation (y gap : Nat) (sk : EventSkipper)
    (hgap : sk.skipThr ≤ gap) :
    (∀ (total rangeTotal : Nat) (events : List (Nat × GeneralEventNameId)),
      (processInstantEvents events
        (EventSkippingProcessor.new 0 MAX_EV_CNT total rangeTotal) y).1.length =
        events.length) ∧
    (sk.shouldKeepInstant gap).1 = true := by
  constructor
  · intro total rt events
    exact processInstantEvents_length_of_zero events _ y rfl
  · rw [shouldKeepInstant_of_thr_le sk gap hgap]

theorem claim_C3_witness :
    (∀ (total rangeTotal : Nat) (events : List (Nat × GeneralEventNameId)),
      (processInstantEvents events
        (EventSkippingProcessor.new 0 MAX_EV_CNT total rangeTotal) 1).1.length =
        events.length) ∧
    ((EventSkipper.new 3 MAX_EV_CNT 10).shouldKeepInstant 5).1 = true :=
  claim_C3_decimation 1 5 (EventSkipper.new 3 MAX_EV_CNT 10) (by decide)

/-- Claim C3, counterexample to the cap clause: with `skip_thr = 0` and
`50001` instants in the window (all at the same timestamp, so every gap is
`0`), every instant is emitted — `50001 > MAX_EV_CNT = 50000` events of the
instant class are kept. -/
theorem claim_C3_counterexample :
    (processInstantEvents (List.replicate 50001 (0, 0))
        (EventSkippingProcessor.new 0 MAX_EV_CNT 50001 0) 1).1.length = 50001 ∧
    MAX_EV_CNT < 50001 := by
  constructor
  · rw [processInstantEvents_length_of_zero _ _ _ rfl, List.length_replicate]
  · decide

/-! ### Range merge (claim C4) -/

theorem mem_mergeAux : ∀ (fuel : Nat) (ls : List LocalRangeTuple)
    (cs : List CrossRangeTuple) (x : RangeEventType),
    x ∈ mergeAux fuel ls cs →
    (∃ l ∈ ls, x = mkLocal l) ∨ (∃ c ∈ cs, x = mkCross c) := by
  intro fuel
  induction fuel with
  | zero =>
    intro ls cs x hx
    cases hx
  | succ fuel ih =>
    intro ls cs x hx
    cases ls with
    | nil =>
      replace hx : x ∈ cs.map mkCross := hx
      rcases List.mem_map.mp hx with ⟨c, hc, rfl⟩
      exact Or.inr ⟨c, hc, rfl⟩
    | cons l ls2 =>
      cases cs with
      | nil =>
        replace hx : x ∈ (l :: ls2).map mkLocal := hx
        rcases List.mem_map.mp hx with ⟨l2, hl2, rfl⟩
        exact Or.inl ⟨l2, hl2, rfl⟩
      | cons c cs2 =>
        replace hx : x ∈ (if l.1 ≤ c.1
            then mkLocal l :: mergeAux fuel ls2 (c :: cs2)
            else mkCross c :: mergeAux fuel (l :: ls2) cs2) := hx
        by_cases hlc : l.1 ≤ c.1
        · rw [if_pos hlc] at hx
          rcases List.mem_cons.mp hx with rfl | hx
          · exact Or.inl ⟨l, List.mem_cons_self _ _, rfl⟩
          · rcases ih _ _ _ hx with ⟨l2, hl2, rfl⟩ | h
            · exact Or.inl ⟨l2, List.mem_cons_of_mem _ hl2, rfl⟩
            · exact Or.inr h
        · rw [if_neg hlc] at hx
          rcases List.mem_cons.mp hx with rfl | hx
          · exact Or.inr ⟨c, List.mem_cons_self _ _, rfl⟩
          · rcases ih _ _ _ hx with h | ⟨c2, hc2, rfl⟩
            · exact Or.inl h
            · exact Or.inr ⟨c2, List.mem_cons_of_mem _ hc2, rfl⟩

theorem mergeAux_pairwise : ∀ (fuel : Nat) (ls : List LocalRangeTuple)
    (cs : List CrossRangeTuple),
    ls.length + cs.length ≤ fuel →
    ls.Pairwise (fun a b => a.1 ≤ b.1) →
    cs.Pairwise (fun a b => a.1 ≤ b.1) →
    (mergeAux fuel ls cs).Pairwise (fun a b =>
      a.startTime ≤ b.startTime ∧
      (a.startTime = b.startTime → a.crossThreadId.isSome = true →
        b.crossThreadId.isSome = true)) := by
  intro fuel
  induction fuel with
  | zero =>
    intro ls cs hf _ _
    show List.Pairwise _ []
    exact List.Pairwise.nil
  | succ fuel ih =>
    intro ls cs hf hls hcs
    cases ls with
    | nil =>
      show List.Pairwise _ (cs.map mkCross)
      rw [List.pairwise_map]
      refine hcs.imp ?_
      intro a b hab
      exact ⟨hab, fun _ _ => rfl⟩
    | cons l ls2 =>
      cases cs with
      | nil =>
        show List.Pairwise _ ((l :: ls2).map mkLocal)
        rw [List.pairwise_map]
        refine hls.imp ?_
        intro a b hab
        refine ⟨hab, ?_⟩
        intro _ hcross
        exact absurd hcross (by simp [mkLocal, RangeEventType.crossThreadId])
      | cons c cs2 =>
        rcases List.pairwise_cons.mp hls with ⟨hl_all, hls2⟩
        rcases List.pairwise_cons.mp hcs with ⟨hc_all, hcs2⟩
        show List.Pairwise _ (if l.1 ≤ c.1
          then mkLocal l :: mergeAux fuel ls2 (c :: cs2)
          else mkCross c :: mergeAux fuel (l :: ls2) cs2)
        by_cases hlc : l.1 ≤ c.1
        · rw [if_pos hlc, List.pairwise_cons]
          refine ⟨?_, ih ls2 (c :: cs2) (by simp at hf ⊢; omega) hls2 hcs⟩
          intro y hy
          refine ⟨?_, ?_⟩
          · rcases mem_mergeAux _ _ _ _ hy with ⟨l2, hl2, rfl⟩ | ⟨c2, hc2, rfl⟩
            · exact hl_all l2 hl2
            · show l.1 ≤ c2.1
              rcases List.mem_cons.mp hc2 with rfl | hc2
              · exact hlc
              · exact le_trans hlc (hc_all c2 hc2)
          · intro _ hcross
            exact absurd hcross (by simp [mkLocal, RangeEventType.crossThreadId])
        · rw [if_neg hlc, List.pairwise_cons]
          have hcl : c.1 < l.1 := by omega
          refine ⟨?_, ih (l :: ls2) cs2 (by simp at hf ⊢; omega) hls hcs2⟩
          intro y hy
          rcases mem_mergeAux _ _ _ _ hy with ⟨l2, hl2, rfl⟩ | ⟨c2, hc2, rfl⟩
          · have hll2 : l.1 ≤ l2.1 := by
              rcases List.mem_cons.mp hl2 with rfl | hl2
              · exact le_refl _
              · exact hl_all l2 hl2
            refine ⟨by show c.1 ≤ l2.1; omega, ?_⟩
            intro heq _
            exfalso
            have : c.1 = l2.1 := heq
            omega
          · refine ⟨hc_all c2 hc2, fun _ _ => rfl⟩

theorem mergeRangeEvents_pairwise (ls : List LocalRangeTuple)
    (cs : List CrossRangeTuple)
    (hls : ls.Pairwise (fun a b => a.1 ≤ b.1))
    (hcs : cs.Pairwise (fun a b => a.1 ≤ b.1)) :
    (mergeRangeEvents ls cs).Pairwise (fun a b =>
      a.startTime ≤ b.startTime ∧
      (a.startTime = b.startTime → a.crossThreadId.isSome = true →
        b.crossThreadId.isSome = true)) :=
  mergeAux_pairwise (ls.length + cs.length) ls cs (le_refl _) hls hcs

theorem processRangeStep_some (skipThr : Nat)
    (st : ProcState × EventSkippingProcessor) (ev : RangeEventType)
    (h : st.1.prevStart ≤ ev.startTime) :
    ∃ st2, processRangeStep skipThr st ev = some st2 ∧
      st2.1.prevStart = ev.startTime := by
  simp only [processRangeStep]
  rw [if_neg (by omega : ¬ ev.startTime < st.1.prevStart)]
  split_ifs with h1 h2
  · exact ⟨_, rfl, rfl⟩
  · exact ⟨_, rfl, rfl⟩
  · exact ⟨_, rfl, rfl⟩

theorem processRangeList_some (skipThr : Nat) :
    ∀ (evs : List RangeEventType) (st : ProcState × EventSkippingProcessor),
      evs.Pairwise (fun a b => a.startTime ≤ b.startTime) →
      (∀ e ∈ evs, st.1.prevStart ≤ e.startTime) →
      (processRangeList skipThr evs st).isSome := by
  intro evs
  induction evs with
  | nil => intro st _ _; rfl
  | cons ev evs ih =>
    intro st hpw hge
    obtain ⟨st2, hstep, hprev⟩ :=
      processRangeStep_some skipThr st ev (hge ev (List.mem_cons_self _ _))
    show (match processRangeStep skipThr st ev with
      | none => none
      | some st2 => processRangeList skipThr evs st2).isSome
    rw [hstep]
    rcases List.pairwise_cons.mp hpw with ⟨hev_all, hpw2⟩
    exact ih st2 hpw2 (fun e he => by rw [hprev]; exact hev_all e he)

/-- Claim C4: `merge_range_events` applied to start-sorted local and
cross-thread streams produces a stream non-decreasing in start time in
which, at equal starts, a local event never appears after a cross-thread
event (local wins ties); consequently the merge-order panic in
`process_range_events` (`range_start < prev_start`, modelled as the `none`
outcome) is unreachable. -/
theorem claim_C4_merge_order (ls : List LocalRangeTuple)
    (cs : List CrossRangeTuple)
    (hls : ls.Pairwise (fun a b => a.1 ≤ b.1))
    (hcs : cs.Pairwise (fun a b => a.1 ≤ b.1)) :
    (mergeRangeEvents ls cs).Pairwise
      (fun a b => a.startTime ≤ b.startTime) ∧
    (mergeRangeEvents ls cs).Pairwise
      (fun a b => a.startTime = b.startTime →
        a.crossThreadId.isSome = true → b.crossThreadId.isSome = true) ∧
    (∀ (proc : EventSkippingProcessor) (skipThr : Nat),
      (processRangeEvents ls cs proc skipThr).isSome) := by
  have hpw := mergeRangeEvents_pairwise ls cs hls hcs
  refine ⟨hpw.imp (fun h => h.1), hpw.imp (fun h => h.2), ?_⟩
  intro proc skipThr
  have hsome := processRangeList_some skipThr (mergeRangeEvents ls cs)
    (initProcState, proc) (hpw.imp (fun h => h.1))
    (fun e _ => Nat.zero_le _)
  rw [processRangeEvents]
  cases hres : processRangeList skipThr (mergeRangeEvents ls cs)
      (initProcState, proc) with
  | none => rw [hres] at hsome; cases hsome
  | some st => rfl

theorem claim_C4_witness :
    ((mergeRangeEvents [(5, 15, 1, none)] [(5, 20, 2, none, 42)]).Pairwise
      (fun a b => a.startTime ≤ b.startTime) ∧
    (mergeRangeEvents [(5, 15, 1, none)] [(5, 20, 2, none, 42)]).Pairwise
      (fun a b => a.startTime = b.startTime →
        a.crossThreadId.isSome = true → b.crossThreadId.isSome = true) ∧
    (∀ (proc : EventSkippingProcessor) (skipThr : Nat),
      (processRangeEvents [(5, 15, 1, none)] [(5, 20, 2, none, 42)]
        proc skipThr).isSome)) :=
  claim_C4_merge_order [(5, 15, 1, none)] [(5, 20, 2, none, 42)]
    (by decide) (by decide)

/-! ### Lane assignment (claim C5) -/

theorem swapRemove_length (v : List (Nat × Nat)) (i : Nat) (h : i < v.length) :
    (swapRemove v i).length = v.length - 1 := by
  rw [swapRemove, List.length_dropLast, List.length_set]

theorem getLastD_of_ne_nil (v : List (Nat × Nat)) (d1 d2 : Nat × Nat)
    (h : v ≠ []) : v.getLastD d1 = v.getLastD d2 := by
  rw [List.getLastD_eq_getLast?, List.getLastD_eq_getLast?,
    List.getLast?_eq_getLast_of_ne_nil h]
  rfl

theorem swapRemove_cons_succ (a : Nat × Nat) (v : List (Nat × Nat)) (i : Nat)
    (h : i < v.length) :
    swapRemove (a :: v) (i + 1) = a :: swapRemove v i := by
  have hv : v ≠ [] := by
    intro hnil
    rw [hnil] at h
    cases h
  have hset : v.set i (v.getLastD a) ≠ [] := by
    intro hnil
    have hlen := congrArg List.length hnil
    rw [List.length_set, List.length_nil] at hlen
    omega
  rw [swapRemove, swapRemove, List.getLastD_cons, List.set_cons_succ,
    List.dropLast_cons_of_ne_nil hset]
  rw [getLastD_of_ne_nil v a (0, 0) hv]

theorem swapRemove_perm : ∀ (v : List (Nat × Nat)) (i : Nat)
    (h : i < v.length), v.Perm (v.get ⟨i, h⟩ :: swapRemove v i) := by
  intro v
  induction v with
  | nil => intro i h; cases h
  | cons a v ih =>
    intro i h
    cases i with
    | zero =>
      cases v with
      | nil =>
        show [a].Perm (a :: swapRemove [a] 0)
        have hr : swapRemove [a] 0 = [] := rfl
        rw [hr]
      | cons b v2 =>
        have hne : (b :: v2) ≠ [] := by simp
        have hsw : swapRemove (a :: b :: v2) 0 =
            (b :: v2).getLastD a :: (b :: v2).dropLast := by
          rw [swapRemove, List.getLastD_cons, List.set_cons_zero,
            List.dropLast_cons_of_ne_nil hne]
        have hgl : (b :: v2).getLastD a = (b :: v2).getLast hne := by
          rw [List.getLastD_eq_getLast?, List.getLast?_eq_getLast_of_ne_nil hne]
          rfl
        show (a :: b :: v2).Perm ((a :: b :: v2).get ⟨0, h⟩ :: swapRemove (a :: b :: v2) 0)
        rw [hsw, hgl]
        show (a :: b :: v2).Perm
          (a :: (b :: v2).getLast hne :: (b :: v2).dropLast)
        apply List.Perm.cons a
        have hsplit : (b :: v2).dropLast ++ [(b :: v2).getLast hne] = b :: v2 :=
          List.dropLast_append_getLast hne
        conv_lhs => rw [← hsplit]
        exact List.perm_append_singleton _ _
    | succ i =>
      have hi : i < v.length := by
        simpa using Nat.lt_of_succ_lt_succ h
      rw [swapRemove_cons_succ a v i hi]
      show (a :: v).Perm ((a :: v).get ⟨i + 1, h⟩ :: a :: swapRemove v i)
      have hget : (a :: v).get ⟨i + 1, h⟩ = v.get ⟨i, hi⟩ := rfl
      rw [hget]
      exact (List.Perm.cons a (ih i hi)).trans
        (List.Perm.swap (v.get ⟨i, hi⟩) a (swapRemove v i))

theorem swapRemove_get_lt (v : List (Nat × Nat)) (i j : Nat)
    (hij : j < i) (hj : j < (swapRemove v i).length) (hjv : j < v.length) :
    (swapRemove v i).get ⟨j, hj⟩ = v.get ⟨j, hjv⟩ := by
  rw [List.get_eq_getElem, List.get_eq_getElem]
  show ((v.set i (v.getLastD (0, 0))).dropLast)[j] = v[j]
  rw [List.getElem_dropLast]
  exact List.getElem_set_ne (by omega) _

theorem pickYAux_spec : ∀ (fuel : Nat) (used : List Bool) (y : Nat),
    y ≤ 255 → 255 - y ≤ fuel →
    (∀ z, z < y → used.getD z false = true) →
    (y ≤ pickYAux fuel used y ∧ pickYAux fuel used y ≤ 255 ∧
      (∀ z, z < pickYAux fuel used y → used.getD z false = true) ∧
      (pickYAux fuel used y < 255 →
        used.getD (pickYAux fuel used y) false = false)) := by
  intro fuel
  induction fuel with
  | zero =>
    intro used y hy hf hall
    have hy255 : y = 255 := by omega
    subst hy255
    have hr : pickYAux 0 used 255 = 255 := rfl
    rw [hr]
    exact ⟨le_refl _, le_refl _, hall, fun hlt => absurd hlt (by omega)⟩
  | succ fuel ih =>
    intro used y hy hf hall
    have hstep : pickYAux (fuel + 1) used y =
        if y < 255 ∧ used.getD y false then pickYAux fuel used (y + 1) else y :=
      rfl
    rw [hstep]
    split_ifs with hc
    · obtain ⟨h1, h2, h3, h4⟩ := ih used (y + 1) (by omega) (by omega)
        (by
          intro z hz
          rcases Nat.lt_or_ge z y with hzy | hzy
          · exact hall z hzy
          · have hzeq : z = y := by omega
            subst hzeq
            exact hc.2)
      exact ⟨by omega, h2, h3, h4⟩
    · refine ⟨le_refl _, hy, hall, ?_⟩
      intro hlt
      cases hused : used.getD y false with
      | false => rfl
      | true => exact absurd ⟨hlt, hused⟩ hc

theorem pickY_spec (used : List Bool) :
    pickY used ≤ 255 ∧
    (∀ z, z < pickY used → used.getD z false = true) ∧
    (pickY used < 255 → used.getD (pickY used) false = false) := by
  obtain ⟨h1, h2, h3, h4⟩ := pickYAux_spec 255 used 0 (by omega) (by omega)
    (by intro z hz; omega)
  exact ⟨h2, h3, h4⟩

theorem getD_set_ne (l : List Bool) (i j : Nat) (a : Bool) (hij : i ≠ j) :
    (l.set i a).getD j false = l.getD j false := by
  rw [List.getD_eq_getElem?_getD, List.getD_eq_getElem?_getD,
    List.getElem?_set_ne hij]

theorem retireAux_spec : ∀ (fuel : Nat) (v : List (Nat × Nat)) (i : Nat)
    (used : List Bool) (s : Nat),
    v.length - i ≤ fuel →
    used.length = 256 →
    (∀ p ∈ v, p.2 ≤ 255) →
    v.Pairwise (fun p q => p.2 = q.2 → p.2 = 255) →
    (∀ y, y < 255 → used.getD y false = false → ∀ p ∈ v, p.2 ≠ y) →
    (∀ j (hj : j < v.length), j < i → s < (v.get ⟨j, hj⟩).1) →
    ((retireAux fuel v i used s).2.length = 256 ∧
      (∀ p ∈ (retireAux fuel v i used s).1, p ∈ v) ∧
      (∀ p ∈ v, s < p.1 → p ∈ (retireAux fuel v i used s).1) ∧
      (∀ p ∈ (retireAux fuel v i used s).1, s < p.1) ∧
      (∀ p ∈ (retireAux fuel v i used s).1, p.2 ≤ 255) ∧
      (retireAux fuel v i used s).1.Pairwise
        (fun p q => p.2 = q.2 → p.2 = 255) ∧
      (∀ y, y < 255 → (retireAux fuel v i used s).2.getD y false = false →
        ∀ p ∈ (retireAux fuel v i used s).1, p.2 ≠ y)) := by
  intro fuel
  induction fuel with
  | zero =>
    intro v i used s hf hu h255 hpw hfree hpre
    have hiv : v.length ≤ i := by omega
    have hr : retireAux 0 v i used s = (v, used) := rfl
    rw [hr]
    have hall : ∀ p ∈ v, s < p.1 := by
      intro p hp
      rcases List.mem_iff_get.mp hp with ⟨⟨j, hj⟩, rfl⟩
      exact hpre j hj (by omega)
    exact ⟨hu, fun p hp => hp, fun p hp _ => hp, hall, h255, hpw, hfree⟩
  | succ fuel ih =>
    intro v i used s hf hu h255 hpw hfree hpre
    cases hget : v.get? i with
    | none =>
      have hiv : v.length ≤ i := List.get?_eq_none.mp hget
      have hr : retireAux (fuel + 1) v i used s = (v, used) := by
        simp only [retireAux, hget]
      rw [hr]
      have hall : ∀ p ∈ v, s < p.1 := by
        intro p hp
        rcases List.mem_iff_get.mp hp with ⟨⟨j, hj⟩, rfl⟩
        exact hpre j hj (by omega)
      exact ⟨hu, fun p hp => hp, fun p hp _ => hp, hall, h255, hpw, hfree⟩
    | some p0 =>
      obtain ⟨hi, hvget⟩ := List.get?_eq_some.mp hget
      by_cases hps : p0.1 ≤ s
      · -- expired: swap-remove and clear the lane
        have hr : retireAux (fuel + 1) v i used s =
            retireAux fuel (swapRemove v i) i (used.set p0.2 false) s := by
          simp only [retireAux, hget, if_pos hps]
        rw [hr]
        have hperm : v.Perm (p0 :: swapRemove v i) := by
          have := swapRemove_perm v i hi
          rwa [hvget] at this
        have hsymm : ∀ {p q : Nat × Nat},
            (p.2 = q.2 → p.2 = 255) → (q.2 = p.2 → q.2 = 255) := by
          intro p q hpq heq
          rw [heq]
          exact hpq heq.symm
        have hpw_cons : (p0 :: swapRemove v i).Pairwise
            (fun p q => p.2 = q.2 → p.2 = 255) :=
          ((hperm.pairwise_iff (fun h => hsymm h)).mp hpw)
        have hmem_sub : ∀ p ∈ swapRemove v i, p ∈ v := by
          intro p hp
          exact hperm.symm.mem_iff.mp (List.mem_cons_of_mem _ hp)
        have hlen2 : (swapRemove v i).length - i ≤ fuel := by
          rw [swapRemove_length v i hi]
          omega
        obtain ⟨c1, c2, c3, c4, c5, c6, c7⟩ :=
          ih (swapRemove v i) i (used.set p0.2 false) s hlen2
            (by rw [List.length_set]; exact hu)
            (fun p hp => h255 p (hmem_sub p hp))
            (List.Pairwise.of_cons hpw_cons)
            (by
              intro y hy255 hfree2 p hp
              by_cases hyy : p0.2 = y
              · subst hyy
                intro heq
                have h0 := (List.pairwise_cons.mp hpw_cons).1 p hp heq.symm
                omega
              · rw [getD_set_ne used p0.2 y false hyy] at hfree2
                exact hfree y hy255 hfree2 p (hmem_sub p hp))
            (by
              intro j hj hji
              have hjv : j < v.length := by
                rw [swapRemove_length v i hi] at hj
                omega
              rw [swapRemove_get_lt v i j hji hj hjv]
              exact hpre j hjv (by omega))
        refine ⟨c1, fun p hp => hmem_sub p (c2 p hp), ?_, c4, c5, c6, c7⟩
        intro p hp hsp
        rcases List.mem_cons.mp (hperm.mem_iff.mp hp) with rfl | hp2
        · omega
        · exact c3 p hp2 hsp
      · -- not expired: advance the index
        have hr : retireAux (fuel + 1) v i used s =
            retireAux fuel v (i + 1) used s := by
          simp only [retireAux, hget, if_neg hps]
        rw [hr]
        exact ih v (i + 1) used s (by omega) hu h255 hpw hfree
          (by
            intro j hj hji
            rcases Nat.lt_or_ge j i with hlt | hge
            · exact hpre j hj hlt
            · have hji2 : j = i := by omega
              subst hji2
              have : v.get ⟨j, hj⟩ = p0 := hvget
              rw [this]
              omega)

theorem retireLoop_spec (v : List (Nat × Nat)) (used : List Bool) (s : Nat)
    (hu : used.length = 256)
    (h255 : ∀ p ∈ v, p.2 ≤ 255)
    (hpw : v.Pairwise (fun p q => p.2 = q.2 → p.2 = 255))
    (hfree : ∀ y, y < 255 → used.getD y false = false → ∀ p ∈ v, p.2 ≠ y) :
    ((retireLoop v used s).2.length = 256 ∧
      (∀ p ∈ (retireLoop v used s).1, p ∈ v) ∧
      (∀ p ∈ v, s < p.1 → p ∈ (retireLoop v used s).1) ∧
      (∀ p ∈ (retireLoop v used s).1, s < p.1) ∧
      (∀ p ∈ (retireLoop v used s).1, p.2 ≤ 255) ∧
      (retireLoop v used s).1.Pairwise (fun p q => p.2 = q.2 → p.2 = 255) ∧
      (∀ y, y < 255 → (retireLoop v used s).2.getD y false = false →
        ∀ p ∈ (retireLoop v used s).1, p.2 ≠ y)) :=
  retireAux_spec v.length v 0 used s (by omega) hu h255 hpw hfree
    (fun j hj hji => absurd hji (by omega))

theorem pairwise_append_right_singleton {α : Type _} {R : α → α → Prop}
    (A B : List α) (n : α) (h : (A ++ B).Pairwise R)
    (hn1 : ∀ o ∈ A ++ B, R o n) :
    (A ++ (B ++ [n])).Pairwise R := by
  rw [List.pairwise_append] at h
  obtain ⟨hA, hB, hAB⟩ := h
  rw [List.pairwise_append]
  refine ⟨hA, ?_, ?_⟩
  · rw [List.pairwise_append]
    refine ⟨hB, List.pairwise_singleton _ _, ?_⟩
    intro b hb x hx
    rcases List.mem_singleton.mp hx with rfl
    exact hn1 b (List.mem_append_right _ hb)
  · intro a ha x hx
    rcases List.mem_append.mp hx with hx | hx
    · exact hAB a ha x hx
    · rcases List.mem_singleton.mp hx with rfl
      exact hn1 a (List.mem_append_left _ ha)

theorem pairwise_append_left_singleton {α : Type _} {R : α → α → Prop}
    (A B : List α) (n : α) (h : (A ++ B).Pairwise R)
    (hn1 : ∀ o ∈ A ++ B, R o n) (hn2 : ∀ o ∈ A ++ B, R n o) :
    ((A ++ [n]) ++ B).Pairwise R := by
  rw [List.pairwise_append] at h
  obtain ⟨hA, hB, hAB⟩ := h
  rw [List.pairwise_append]
  refine ⟨?_, hB, ?_⟩
  · rw [List.pairwise_append]
    refine ⟨hA, List.pairwise_singleton _ _, ?_⟩
    intro a ha x hx
    rcases List.mem_singleton.mp hx with rfl
    exact hn1 a (List.mem_append_left _ ha)
  · intro a ha b hb
    rcases List.mem_append.mp ha with ha | ha
    · exact hAB a ha b hb
    · rcases List.mem_singleton.mp ha with rfl
      exact hn2 b (List.mem_append_right _ hb)

theorem getD_set_self (l : List Bool) (i : Nat) (a : Bool) (h : i < l.length) :
    (l.set i a).getD i false = a := by
  rw [List.getD_eq_getElem?_getD, List.getElem?_set_self (by omega)]
  rfl

theorem keptPieces (ps : ProcState) (s e : Nat)
    (hinv : LaneInv ps) (hge : ps.prevStart ≤ s) :
    ((retireLoop ps.activeRanges ps.usedYLevels s).2.set
        (pickY (retireLoop ps.activeRanges ps.usedYLevels s).2) true).length = 256 ∧
    (∀ y, y < 255 →
      ((retireLoop ps.activeRanges ps.usedYLevels s).2.set
        (pickY (retireLoop ps.activeRanges ps.usedYLevels s).2) true).getD y false
        = false →
      ∀ p ∈ (retireLoop ps.activeRanges ps.usedYLevels s).1 ++
        [(e, pickY (retireLoop ps.activeRanges ps.usedYLevels s).2)], p.2 ≠ y) ∧
    ((retireLoop ps.activeRanges ps.usedYLevels s).1 ++
      [(e, pickY (retireLoop ps.activeRanges ps.usedYLevels s).2)]).Pairwise
      (fun p q => p.2 = q.2 → p.2 = 255) ∧
    (∀ p ∈ (retireLoop ps.activeRanges ps.usedYLevels s).1 ++
      [(e, pickY (retireLoop ps.activeRanges ps.usedYLevels s).2)], p.2 ≤ 255) ∧
    (∀ o ∈ ps.localRangeBuf ++ ps.crossThreadRangeBuf,
      (o.endT, o.y) ∈ (retireLoop ps.activeRanges ps.usedYLevels s).1 ++
        [(e, pickY (retireLoop ps.activeRanges ps.usedYLevels s).2)] ∨
      o.endT ≤ s) ∧
    ((e, pickY (retireLoop ps.activeRanges ps.usedYLevels s).2) ∈
      (retireLoop ps.activeRanges ps.usedYLevels s).1 ++
        [(e, pickY (retireLoop ps.activeRanges ps.usedYLevels s).2)]) ∧
    (∀ o ∈ ps.localRangeBuf ++ ps.crossThreadRangeBuf, ∀ kept : KeptRange,
      kept.start = s →
      kept.y = pickY (retireLoop ps.activeRanges ps.usedYLevels s).2 →
      (o.y = kept.y → o.y ≠ 255 → (o.endT ≤ kept.start ∨ kept.endT ≤ o.start)) ∧
      (kept.y = o.y → kept.y ≠ 255 →
        (kept.endT ≤ o.start ∨ o.endT ≤ kept.start))) := by
  obtain ⟨hu, hfree, hpw, h255, hbufact, hbufpw⟩ := hinv
  obtain ⟨c1, c2, c3, c4, c5, c6, c7⟩ :=
    retireLoop_spec ps.activeRanges ps.usedYLevels s hu h255 hpw hfree
  obtain ⟨hy255, hymin, hyfree⟩ :=
    pickY_spec (retireLoop ps.activeRanges ps.usedYLevels s).2
  have hdisj : ∀ o ∈ ps.localRangeBuf ++ ps.crossThreadRangeBuf,
      o.y = pickY (retireLoop ps.activeRanges ps.usedYLevels s).2 →
      o.y ≠ 255 → o.endT ≤ s := by
    intro o ho hoy h255o
    have hylt : pickY (retireLoop ps.activeRanges ps.usedYLevels s).2 < 255 := by
      omega
    have hnact := c7 _ hylt (hyfree hylt)
    rcases hbufact o ho with hmem | hend
    · by_cases hoe : o.endT ≤ s
      · exact hoe
      · exfalso
        exact hnact (o.endT, o.y) (c3 _ hmem (by omega)) hoy
    · omega
  refine ⟨?_, ?_, ?_, ?_, ?_, ?_, ?_⟩
  · rw [List.length_set]
    exact c1
  · intro y hy hf2 p hp
    have hyy : pickY (retireLoop ps.activeRanges ps.usedYLevels s).2 ≠ y := by
      intro heq
      rw [← heq, getD_set_self _ _ _ (by omega)] at hf2
      cases hf2
    rcases List.mem_append.mp hp with hp | hp
    · rw [getD_set_ne _ _ _ _ hyy] at hf2
      exact c7 y hy hf2 p hp
    · rcases List.mem_singleton.mp hp with rfl
      exact hyy
  · rw [List.pairwise_append]
    refine ⟨c6, List.pairwise_singleton _ _, ?_⟩
    intro p hp q hq heq
    rcases List.mem_singleton.mp hq with rfl
    by_cases h5 : pickY (retireLoop ps.activeRanges ps.usedYLevels s).2 < 255
    · exact absurd heq (c7 _ h5 (hyfree h5) p hp)
    · omega
  · intro p hp
    rcases List.mem_append.mp hp with hp | hp
    · exact c5 p hp
    · rcases List.mem_singleton.mp hp with rfl
      exact hy255
  · intro o ho
    rcases hbufact o ho with hmem | hend
    · by_cases hoe : o.endT ≤ s
      · exact Or.inr hoe
      · exact Or.inl (List.mem_append_left _ (c3 _ hmem (by omega)))
    · exact Or.inr (by omega)
  · exact List.mem_append_right _ (List.mem_singleton.mpr rfl)
  · intro o ho kept hks hky
    constructor
    · intro h1 h2
      left
      rw [hks]
      exact hdisj o ho (h1.trans hky) h2
    · intro h1 h2
      right
      rw [hks]
      refine hdisj o ho (h1.symm.trans hky) ?_
      intro hc
      exact h2 (h1.trans hc)

theorem processRangeStep_inv (skipThr : Nat)
    (st : ProcState × EventSkippingProcessor) (ev : RangeEventType)
    (st2 : ProcState × EventSkippingProcessor)
    (hinv : LaneInv st.1) (hge : st.1.prevStart ≤ ev.startTime)
    (hstep : processRangeStep skipThr st ev = some st2) :
    LaneInv st2.1 ∧ st2.1.prevStart = ev.startTime := by
  obtain ⟨hu, hfree, hpw, h255, hbufact, hbufpw⟩ := hinv
  simp only [processRangeStep] at hstep
  rw [if_neg (by omega : ¬ ev.startTime < st.1.prevStart)] at hstep
  split_ifs at hstep with hkeep hcross
  · -- kept, cross-thread buffer
    rw [Option.some_inj] at hstep
    subst hstep
    obtain ⟨p1, p2, p3, p4, p5, p6, p7⟩ := keptPieces st.1 ev.startTime ev.endTime
      ⟨hu, hfree, hpw, h255, hbufact, hbufpw⟩ hge
    refine ⟨⟨p1, p2, p3, p4, ?_, ?_⟩, rfl⟩
    · intro o ho
      rcases List.mem_append.mp ho with ho2 | ho2
      · exact p5 o (List.mem_append_left _ ho2)
      · rcases List.mem_append.mp ho2 with ho3 | ho3
        · exact p5 o (List.mem_append_right _ ho3)
        · rcases List.mem_singleton.mp ho3 with rfl
          exact Or.inl p6
    · exact pairwise_append_right_singleton _ _ _ hbufpw
        (fun o ho => (p7 o ho _ rfl rfl).1)
  · -- kept, local buffer
    rw [Option.some_inj] at hstep
    subst hstep
    obtain ⟨p1, p2, p3, p4, p5, p6, p7⟩ := keptPieces st.1 ev.startTime ev.endTime
      ⟨hu, hfree, hpw, h255, hbufact, hbufpw⟩ hge
    refine ⟨⟨p1, p2, p3, p4, ?_, ?_⟩, rfl⟩
    · intro o ho
      rcases List.mem_append.mp ho with ho2 | ho2
      · rcases List.mem_append.mp ho2 with ho3 | ho3
        · exact p5 o (List.mem_append_left _ ho3)
        · rcases List.mem_singleton.mp ho3 with rfl
          exact Or.inl p6
      · exact p5 o (List.mem_append_right _ ho2)
    · exact pairwise_append_left_singleton _ _ _ hbufpw
        (fun o ho => (p7 o ho _ rfl rfl).1)
        (fun o ho => (p7 o ho _ rfl rfl).2)
  · -- skipped
    rw [Option.some_inj] at hstep
    subst hstep
    refine ⟨⟨hu, hfree, hpw, h255, ?_, hbufpw⟩, rfl⟩
    intro o ho
    rcases hbufact o ho with hmem | hend
    · exact Or.inl hmem
    · exact Or.inr (show o.endT ≤ ev.startTime by omega)

theorem processRangeList_inv (skipThr : Nat) :
    ∀ (evs : List RangeEventType) (st st2 : ProcState × EventSkippingProcessor),
      evs.Pairwise (fun a b => a.startTime ≤ b.startTime) →
      (∀ e ∈ evs, st.1.prevStart ≤ e.startTime) →
      LaneInv st.1 →
      processRangeList skipThr evs st = some st2 →
      LaneInv st2.1 := by
  intro evs
  induction evs with
  | nil =>
    intro st st2 _ _ hinv hrun
    have h : st = st2 := by
      rw [Option.some_inj.symm]
      exact hrun
    rw [← h]
    exact hinv
  | cons ev evs ih =>
    intro st st2 hpw hge hinv hrun
    replace hrun : (match processRangeStep skipThr st ev with
      | none => none
      | some stm => processRangeList skipThr evs stm) = some st2 := hrun
    cases hstep : processRangeStep skipThr st ev with
    | none =>
      rw [hstep] at hrun
      cases hrun
    | some stm =>
      rw [hstep] at hrun
      obtain ⟨hinv2, hprev⟩ := processRangeStep_inv skipThr st ev stm hinv
        (hge ev (List.mem_cons_self _ _)) hstep
      rcases List.pairwise_cons.mp hpw with ⟨hev_all, hpw2⟩
      exact ih stm st2 hpw2 (fun e he => by rw [hprev]; exact hev_all e he)
        hinv2 hrun

theorem laneInv_init : LaneInv initProcState := by
  refine ⟨?_, ?_, ?_, ?_, ?_, ?_⟩
  · show (List.replicate 256 false).length = 256
    rw [List.length_replicate]
  · intro y _ _ p hp
    cases hp
  · exact List.Pairwise.nil
  · intro p hp
    cases hp
  · intro o ho
    cases ho
  · exact List.Pairwise.nil

/-- Claim C5: in the frame produced by `process_range_events` (on
start-sorted inputs, as delivered by the storage), no two kept ranges that
overlap at any time point `t` share a `y` lane unless both were clamped to
255; the lane scan always returns the smallest `y` not in use — clamped to
255 — after expired ranges are retired; and every instant is assigned the
single lane `min(max_range_y + 1, 255)`. -/
theorem claim_C5_lane_discipline (ls : List LocalRangeTuple)
    (cs : List CrossRangeTuple)
    (hls : ls.Pairwise (fun a b => a.1 ≤ b.1))
    (hcs : cs.Pairwise (fun a b => a.1 ≤ b.1))
    (proc : EventSkippingProcessor) (skipThr : Nat)
    (lbuf cbuf : List KeptRange) (maxY : Nat)
    (hrun : processRangeEvents ls cs proc skipThr = some (lbuf, cbuf, maxY)) :
    ((lbuf ++ cbuf).Pairwise (fun a b => ∀ t, a.start ≤ t → t < a.endT →
      b.start ≤ t → t < b.endT → a.y = b.y → a.y = 255 ∧ b.y = 255)) ∧
    (∀ used : List Bool, pickY used ≤ 255 ∧
      (∀ z, z < pickY used → used.getD z false = true) ∧
      (pickY used < 255 → used.getD (pickY used) false = false)) ∧
    (∀ m : Nat, instantY m = min (m + 1) 255) := by
  have hsorted := (mergeRangeEvents_pairwise ls cs hls hcs).imp (fun h => h.1)
  rw [processRangeEvents] at hrun
  cases hlist : processRangeList skipThr (mergeRangeEvents ls cs)
      (initProcState, proc) with
  | none =>
    rw [hlist] at hrun
    cases hrun
  | some stf =>
    rw [hlist] at hrun
    rw [Option.some_inj, Prod.mk.injEq, Prod.mk.injEq] at hrun
    obtain ⟨e1, e2, e3⟩ := hrun
    have hfin := processRangeList_inv skipThr (mergeRangeEvents ls cs)
      (initProcState, proc) stf hsorted (fun e _ => Nat.zero_le _)
      laneInv_init hlist
    obtain ⟨_, _, _, _, _, hpw6⟩ := hfin
    rw [e1, e2] at hpw6
    refine ⟨?_, fun used => pickY_spec used, ?_⟩
    · refine hpw6.imp ?_
      intro a b hR t ha1 ha2 hb1 hb2 heq
      by_cases h255 : a.y = 255
      · exact ⟨h255, heq ▸ h255⟩
      · rcases hR heq h255 with h | h <;> omega
    · intro m
      rw [instantY]
      split_ifs with h
      · exact (Nat.min_eq_left (by omega)).symm
      · exact (Nat.min_eq_right (by omega)).symm

theorem claim_C5_witness :
    ((([⟨0, 100, 1, none, 0, none⟩, ⟨10, 50, 1, none, 1, none⟩,
        ⟨20, 30, 1, none, 2, none⟩, ⟨150, 200, 1, none, 0, none⟩] :
        List KeptRange) ++ []).Pairwise
      (fun (a b : KeptRange) => ∀ t, a.start ≤ t → t < a.endT →
        b.start ≤ t → t < b.endT → a.y = b.y → a.y = 255 ∧ b.y = 255)) ∧
    (∀ used : List Bool, pickY used ≤ 255 ∧
      (∀ z, z < pickY used → used.getD z false = true) ∧
      (pickY used < 255 → used.getD (pickY used) false = false)) ∧
    (∀ m : Nat, instantY m = min (m + 1) 255) :=
  claim_C5_lane_discipline
    [(0, 100, 1, none), (10, 50, 1, none), (20, 30, 1, none), (150, 200, 1, none)]
    [] (by decide) (by decide) (EventSkippingProcessor.new 0 MAX_EV_CNT 0 4) 0
    [⟨0, 100, 1, none, 0, none⟩, ⟨10, 50, 1, none, 1, none⟩,
      ⟨20, 30, 1, none, 2, none⟩, ⟨150, 200, 1, none, 0, none⟩] [] 2
    (by decide)

end SparklesGui
